import Mathlib

/-!
Verification of the hierarchical selection tree of `Selection.ts`
(`SelectionTreeType` and the module-level selection operations) together
with the aggregation bridge `applyToOrderedSelectedItemsFromFile`.

The tree and its operations are translated from the source; the `ListItem`
hierarchy-address type and `sortItems` live in `FileList.ts`, which is not
part of the excerpt, and are modelled from the specification.
-/

set_option autoImplicit false

namespace GPXSel

/-- Modelled from the spec: the `ListLevel` enum of `FileList.ts` (absent
from the excerpt), an enumerated ordinal ROOT, FILE, TRACK, SEGMENT,
WAYPOINTS, WAYPOINT with lower ordinal closer to the root. -/
inductive ListLevel where
  | root
  | file
  | track
  | segment
  | waypoints
  | waypoint
  deriving DecidableEq, Repr

/-- The numeric value of a `ListLevel`, as the TypeScript enum ordinal. -/
def ListLevel.toNat : ListLevel → Nat
  | .root => 0
  | .file => 1
  | .track => 2
  | .segment => 3
  | .waypoints => 4
  | .waypoint => 5

/-- A child key in the selection tree: `string | number` in the source.
JavaScript `===` never identifies a string with a number, which matches
the disjointness of the two constructors. -/
inductive Id where
  | str (s : String)
  | num (n : Nat)
  deriving DecidableEq, Repr

/-- Modelled from the spec: the concrete `ListItem` variants of
`FileList.ts` (absent from the excerpt) — an immutable address holding one
identifier per level from ROOT down to the item's own level. -/
inductive ListItem where
  | root
  | file (fileId : String)
  | track (fileId : String) (trackIndex : Nat)
  | segment (fileId : String) (trackIndex : Nat) (segmentIndex : Nat)
  | waypoints (fileId : String)
  | waypoint (fileId : String) (waypointIndex : Nat)
  deriving DecidableEq, Repr

/-- Modelled from the spec: each `ListItem` variant's `level`. -/
def ListItem.level : ListItem → ListLevel
  | .root => .root
  | .file _ => .file
  | .track _ _ => .track
  | .segment _ _ _ => .segment
  | .waypoints _ => .waypoints
  | .waypoint _ _ => .waypoint

/-- Modelled from the spec: `getIdAtLevel` of `FileList.ts` (absent from
the excerpt).  For a node of the selection tree sitting at level `L`,
`item.getIdAtLevel(L)` is the key of the child one must enter to walk
toward `item`; it is `undefined` (`none`) when `L` is at or below the
item's own level.  The waypoint branch hangs under the `"waypoints"`
group key of the file node. -/
def ListItem.getIdAtLevel : ListItem → ListLevel → Option Id
  | .root, _ => none
  | .file f, .root => some (.str f)
  | .file _, _ => none
  | .track f _, .root => some (.str f)
  | .track _ t, .file => some (.num t)
  | .track _ _, _ => none
  | .segment f _ _, .root => some (.str f)
  | .segment _ t _, .file => some (.num t)
  | .segment _ _ s, .track => some (.num s)
  | .segment _ _ _, _ => none
  | .waypoints f, .root => some (.str f)
  | .waypoints _, .file => some (.str "waypoints")
  | .waypoints _, _ => none
  | .waypoint f _, .root => some (.str f)
  | .waypoint _ _, .file => some (.str "waypoints")
  | .waypoint _ w, .waypoints => some (.num w)
  | .waypoint _ _, _ => none

/-- Modelled from the spec: `extend` of `FileList.ts` (absent from the
excerpt) produces the address one level deeper obtained by appending `id`;
the `"waypoints"` string key under a file yields the waypoints group.
Extending past the deepest level is undefined behaviour in the source and
returns the item unchanged here (never reached by the tree walks). -/
def ListItem.extend : ListItem → Id → ListItem
  | .root, .str f => .file f
  | .file f, .num t => .track f t
  | .file f, .str _ => .waypoints f
  | .track f t, .num s => .segment f t s
  | .waypoints f, .num w => .waypoint f w
  | i, _ => i

/-- Modelled from the spec: `getFileId` returns the FILE-level identifier
component, or `undefined` for the root item. -/
def ListItem.getFileId : ListItem → Option String
  | .root => none
  | .file f => some f
  | .track f _ => some f
  | .segment f _ _ => some f
  | .waypoints f => some f
  | .waypoint f _ => some f

mutual

/-- The `SelectionTreeType` class: a node storing its address, its own selected
flag, the lazily created children mapping and the cached subtree count. -/
inductive STree where
  | node (item : ListItem) (selected : Bool) (children : Children) (size : Int)

/-- The `children` mapping of a node: an insertion-ordered association
list from child key to child node, as a JavaScript object. -/
inductive Children where
  | nil
  | cons (key : Id) (child : STree) (rest : Children)

end

def STree.item : STree → ListItem
  | .node it _ _ _ => it

def STree.selected : STree → Bool
  | .node _ sel _ _ => sel

def STree.children : STree → Children
  | .node _ _ cs _ => cs

def STree.size : STree → Int
  | .node _ _ _ sz => sz

/-- A `new SelectionTreeType(item)`: unselected, no children, size 0. -/
def freshNode (it : ListItem) : STree :=
  .node it false .nil 0

/-- The `hasOwnProperty` test on the children mapping. -/
def Children.hasKey : Children → Id → Bool
  | .nil, _ => false
  | .cons k _ rest, id => k = id || rest.hasKey id

/-- Reading `this.children[id]`. -/
def Children.lookup : Children → Id → Option STree
  | .nil, _ => none
  | .cons k c rest, id => if k = id then some c else rest.lookup id

/-- Adding a fresh key: JavaScript object insertion appends the new key at
the end of the insertion order. -/
def Children.append : Children → Id → STree → Children
  | .nil, id, c => .cons id c .nil
  | .cons k c0 rest, id, c => .cons k c0 (rest.append id c)

/-- The statement `delete this.children[id]` (removes the unique entry of that key). -/
def Children.removeKey : Children → Id → Children
  | .nil, _ => .nil
  | .cons k c rest, id => if k = id then rest else .cons k c (rest.removeKey id)

/-- The keys of the children mapping in iteration order. -/
def Children.keys : Children → List Id
  | .nil => []
  | .cons k _ rest => k :: rest.keys

mutual

/-- The number of nodes with `selected = true` in the subtree, the value
the cached `size` field is supposed to track. -/
def STree.count : STree → Nat
  | .node _ sel cs _ => (if sel then 1 else 0) + cs.count

def Children.count : Children → Nat
  | .nil => 0
  | .cons _ c rest => c.count + rest.count

end

/-- The `size` of the child stored under `id`, `0` when absent (the source
only reads `this.children[id].size` when the entry exists). -/
def Children.sizeAt (cs : Children) (id : Id) : Int :=
  match cs.lookup id with
  | some c => c.size
  | none => 0

mutual

/-- Both `getSelected` and `forEach`: every selected item of the subtree in
preorder (the accumulator pushes of the source produce exactly this
concatenation, self before children, children in mapping order). -/
def STree.getSelected : STree → List ListItem
  | .node it sel cs _ => (if sel then [it] else []) ++ cs.getSelectedAll

def Children.getSelectedAll : Children → List ListItem
  | .nil => []
  | .cons _ c rest => c.getSelected ++ rest.getSelectedAll

end

mutual

/-- The `clear()` method: recursively reset `selected` and `size`, keeping every
child entry in place. -/
def STree.clear : STree → STree
  | .node it _ cs _ => .node it false cs.clearAll 0

def Children.clearAll : Children → Children
  | .nil => .nil
  | .cons k c rest => .cons k c.clear rest.clearAll

end

/-- The result of running `_setOrToggle(item, value)` on a freshly created
`new SelectionTreeType(ni)`: the walk only ever creates further fresh
nodes, so it is inlined here with a fuel bound on the walk depth.  Fuel
`6` exceeds the deepest level, so the `0` case is never reached by the
calls the tree makes (each step strictly increases the node level). -/
def setFresh : Nat → ListItem → ListItem → Option Bool → STree
  | 0, ni, _, _ => freshNode ni
  | n + 1, ni, item, value =>
    if item.level = ni.level then
      let newSel : Bool := match value with
        | none => true
        | some v => v
      if newSel then .node ni true .nil 1 else .node ni false .nil 0
    else
      match item.getIdAtLevel ni.level with
      | none => freshNode ni
      | some id =>
        let c := setFresh n (ni.extend id) item value
        .node ni false (.cons id c .nil) c.size

mutual

/-- The `_setOrToggle(item, value?)` method: at the target level flip or set the
flag, adjusting `size` by ±1; otherwise descend along
`item.getIdAtLevel(this.item.level)`, creating the child when absent, and
recompute `size` as `size - old child size + new child size`. -/
def STree.setOrToggle : STree → ListItem → Option Bool → STree
  | .node it sel cs sz, item, value =>
    if item.level = it.level then
      let newSel : Bool := match value with
        | none => !sel
        | some v => v
      if sel ≠ newSel then .node it newSel cs (sz + if newSel then 1 else -1)
      else .node it sel cs sz
    else
      match item.getIdAtLevel it.level with
      | none => .node it sel cs sz
      | some id =>
        if cs.hasKey id then
          let cs' := cs.setOrToggleAt id item value
          .node it sel cs' (sz - cs.sizeAt id + cs'.sizeAt id)
        else
          let c := setFresh 6 (it.extend id) item value
          .node it sel (cs.append id c) (sz - 0 + c.size)

def Children.setOrToggleAt : Children → Id → ListItem → Option Bool → Children
  | .nil, _, _, _ => .nil
  | .cons k c rest, id, item, value =>
    if k = id then .cons k (c.setOrToggle item value) rest
    else .cons k c (rest.setOrToggleAt id item value)

end

/-- The `set(item, value)` method. -/
def STree.set (t : STree) (item : ListItem) (value : Bool) : STree :=
  t.setOrToggle item (some value)

/-- The `toggle(item)` method. -/
def STree.toggle (t : STree) (item : ListItem) : STree :=
  t.setOrToggle item none

mutual

/-- The `has(item)` query: walk down the address path and return the flag at the
target level; `false` when the path breaks off. -/
def STree.has : STree → ListItem → Bool
  | .node it sel cs _, item =>
    if item.level = it.level then sel
    else
      match item.getIdAtLevel it.level with
      | some id => cs.hasAt id item
      | none => false

def Children.hasAt : Children → Id → ListItem → Bool
  | .nil, _, _ => false
  | .cons k c rest, id, item =>
    if k = id then c.has item else rest.hasAt id item

end

mutual

/-- The `hasAnyParent(item, self)` query: is some node at or above `item`'s level
(strictly above when `self` is false) on `item`'s path selected. -/
def STree.hasAnyParent : STree → ListItem → Bool → Bool
  | .node it sel cs _, item, self =>
    if sel = true ∧ ListLevel.toNat it.level ≤ ListLevel.toNat item.level ∧
        (self = true ∨ ListLevel.toNat it.level < ListLevel.toNat item.level) then
      sel
    else
      match item.getIdAtLevel it.level with
      | some id => cs.hasAnyParentAt id item self
      | none => false

def Children.hasAnyParentAt : Children → Id → ListItem → Bool → Bool
  | .nil, _, _, _ => false
  | .cons k c rest, id, item, self =>
    if k = id then c.hasAnyParent item self else rest.hasAnyParentAt id item self

end

/-- A child key rendered as a JavaScript property name (`for … in` yields
string keys, so numeric indices appear as their decimal strings). -/
def Id.keyStr : Id → String
  | .str s => s
  | .num n => toString n

/-- The test `ignoreIds !== undefined && ignoreIds.indexOf(id) !== -1` of the
direct-descent branch, where `id` keeps its `string | number` type and
`===` compares values of like type only. -/
def ignoresId : Option (List Id) → Id → Bool
  | none, _ => false
  | some l, id => l.contains id

/-- The same test in the fan-out loop, where the `for … in` key is a
string property name: numeric entries of `ignoreIds` never compare equal
to it under `===`, string entries compare by value. -/
def ignoresKey : Option (List Id) → Id → Bool
  | none, _ => false
  | some l, k =>
    l.any fun ig => match ig with
      | .str s => s = k.keyStr
      | .num _ => false

mutual

/-- The `hasAnyChildren(item, self, ignoreIds)` query: is some node of the subtree
rooted at `item` (at it only when `self`) selected, descending the single
matching child while `item`'s path lasts and fanning out over all
non-ignored children past it. -/
def STree.hasAnyChildren : STree → ListItem → Bool → Option (List Id) → Bool
  | .node it sel cs _, item, self, ign =>
    if sel = true ∧ ListLevel.toNat item.level ≤ ListLevel.toNat it.level ∧
        (self = true ∨ ListLevel.toNat item.level < ListLevel.toNat it.level) then
      sel
    else
      match item.getIdAtLevel it.level with
      | some id =>
        if ignoresId ign id then false else cs.hasAnyChildrenAt id item self ign
      | none => cs.hasAnyChildrenAny item self ign

def Children.hasAnyChildrenAt : Children → Id → ListItem → Bool → Option (List Id) → Bool
  | .nil, _, _, _, _ => false
  | .cons k c rest, id, item, self, ign =>
    if k = id then c.hasAnyChildren item self ign
    else rest.hasAnyChildrenAt id item self ign

def Children.hasAnyChildrenAny : Children → ListItem → Bool → Option (List Id) → Bool
  | .nil, _, _, _ => false
  | .cons k c rest, item, self, ign =>
    if ignoresKey ign k then rest.hasAnyChildrenAny item self ign
    else c.hasAnyChildren item self ign || rest.hasAnyChildrenAny item self ign

end

/-- The `getChild(id)` accessor. -/
def STree.getChild (t : STree) (id : Id) : Option STree :=
  t.children.lookup id

/-- The `deleteChild(id)` method: when present, decrement `size` by the child's
`size` and drop the entry. -/
def STree.deleteChild : STree → Id → STree
  | .node it sel cs sz, id =>
    if cs.hasKey id then .node it sel (cs.removeKey id) (sz - cs.sizeAt id)
    else .node it sel cs sz

mutual

/-- The `has` walk with the receiver threaded through every statement as explicit
state, so that the absence of writes is a provable fact rather than a
typing convention: the second component is the tree `has` leaves behind. -/
def STree.hasT : STree → ListItem → Bool × STree
  | .node it sel cs sz, item =>
    if item.level = it.level then (sel, .node it sel cs sz)
    else
      match item.getIdAtLevel it.level with
      | some id =>
        let r := cs.hasAtT id item
        (r.1, .node it sel r.2 sz)
      | none => (false, .node it sel cs sz)

def Children.hasAtT : Children → Id → ListItem → Bool × Children
  | .nil, _, _ => (false, .nil)
  | .cons k c rest, id, item =>
    if k = id then
      let r := c.hasT item
      (r.1, .cons k r.2 rest)
    else
      let r := rest.hasAtT id item
      (r.1, .cons k c r.2)

end

mutual

/-- The `hasAnyParent` walk with the receiver threaded as explicit state. -/
def STree.hasAnyParentT : STree → ListItem → Bool → Bool × STree
  | .node it sel cs sz, item, self =>
    if sel = true ∧ ListLevel.toNat it.level ≤ ListLevel.toNat item.level ∧
        (self = true ∨ ListLevel.toNat it.level < ListLevel.toNat item.level) then
      (sel, .node it sel cs sz)
    else
      match item.getIdAtLevel it.level with
      | some id =>
        let r := cs.hasAnyParentAtT id item self
        (r.1, .node it sel r.2 sz)
      | none => (false, .node it sel cs sz)

def Children.hasAnyParentAtT : Children → Id → ListItem → Bool → Bool × Children
  | .nil, _, _, _ => (false, .nil)
  | .cons k c rest, id, item, self =>
    if k = id then
      let r := c.hasAnyParentT item self
      (r.1, .cons k r.2 rest)
    else
      let r := rest.hasAnyParentAtT id item self
      (r.1, .cons k c r.2)

end

mutual

/-- The `hasAnyChildren` walk with the receiver threaded as explicit state. -/
def STree.hasAnyChildrenT : STree → ListItem → Bool → Option (List Id) → Bool × STree
  | .node it sel cs sz, item, self, ign =>
    if sel = true ∧ ListLevel.toNat item.level ≤ ListLevel.toNat it.level ∧
        (self = true ∨ ListLevel.toNat item.level < ListLevel.toNat it.level) then
      (sel, .node it sel cs sz)
    else
      match item.getIdAtLevel it.level with
      | some id =>
        if ignoresId ign id then (false, .node it sel cs sz)
        else
          let r := cs.hasAnyChildrenAtT id item self ign
          (r.1, .node it sel r.2 sz)
      | none =>
        let r := cs.hasAnyChildrenAnyT item self ign
        (r.1, .node it sel r.2 sz)

def Children.hasAnyChildrenAtT : Children → Id → ListItem → Bool → Option (List Id) → Bool × Children
  | .nil, _, _, _, _ => (false, .nil)
  | .cons k c rest, id, item, self, ign =>
    if k = id then
      let r := c.hasAnyChildrenT item self ign
      (r.1, .cons k r.2 rest)
    else
      let r := rest.hasAnyChildrenAtT id item self ign
      (r.1, .cons k c r.2)

def Children.hasAnyChildrenAnyT : Children → ListItem → Bool → Option (List Id) → Bool × Children
  | .nil, _, _, _ => (false, .nil)
  | .cons k c rest, item, self, ign =>
    if ignoresKey ign k then
      let r := rest.hasAnyChildrenAnyT item self ign
      (r.1, .cons k c r.2)
    else
      let r := c.hasAnyChildrenT item self ign
      if r.1 then (true, .cons k r.2 rest)
      else
        let r2 := rest.hasAnyChildrenAnyT item self ign
        (r2.1, .cons k r.2 r2.2)

end

mutual

/-- The observable state of the node reached by following the key path
`p` from this node: its address, flag and cached size, or `none` when the
path leaves the allocated tree. -/
def STree.nodeView : STree → List Id → Option (ListItem × Bool × Int)
  | .node it sel _ sz, [] => some (it, sel, sz)
  | .node _ _ cs _, k :: p => cs.nodeViewAt k p

def Children.nodeViewAt : Children → Id → List Id → Option (ListItem × Bool × Int)
  | .nil, _, _ => none
  | .cons k' c rest, k, p =>
    if k' = k then c.nodeView p else rest.nodeViewAt k p

end

/-- The chain of nodes a walk toward `item` allocates below `ni` when it
creates and never selects them: every node unselected with size 0. -/
def freshPath : Nat → ListItem → ListItem → STree
  | 0, ni, _ => freshNode ni
  | n + 1, ni, item =>
    if item.level = ni.level then freshNode ni
    else
      match item.getIdAtLevel ni.level with
      | none => freshNode ni
      | some id => .node ni false (.cons id (freshPath n (ni.extend id) item) .nil) 0

mutual

/-- The pure allocation effect of a walk toward `item`: existing nodes are
kept with their flag and size, and the missing tail of the path is
appended as an unselected `freshPath`.  Toggling an item twice equals
this. -/
def STree.pathTouch : STree → ListItem → STree
  | .node it sel cs sz, item =>
    if item.level = it.level then .node it sel cs sz
    else
      match item.getIdAtLevel it.level with
      | none => .node it sel cs sz
      | some id =>
        if cs.hasKey id then .node it sel (cs.pathTouchAt id item) sz
        else .node it sel (cs.append id (freshPath 6 (it.extend id) item)) sz

def Children.pathTouchAt : Children → Id → ListItem → Children
  | .nil, _, _ => .nil
  | .cons k c rest, id, item =>
    if k = id then .cons k (c.pathTouch item) rest
    else .cons k c (rest.pathTouchAt id item)

end

mutual

/-- Every `size` field of the subtree equals the true count of selected
nodes below it (itself included) — the cached-count invariant. -/
def STree.sizeInv : STree → Prop
  | .node it sel cs sz => sz = (STree.count (.node it sel cs sz) : Int) ∧ cs.sizeInvAll

def Children.sizeInvAll : Children → Prop
  | .nil => True
  | .cons _ c rest => c.sizeInv ∧ rest.sizeInvAll

end

mutual

/-- No node of the subtree is selected. -/
def STree.allOff : STree → Prop
  | .node _ sel cs _ => sel = false ∧ cs.allOffAll

def Children.allOffAll : Children → Prop
  | .nil => True
  | .cons _ c rest => c.allOff ∧ rest.allOffAll

end

mutual

/-- Every node's stored address matches its position: the child under key
`k` of a node addressed `it` is addressed `it.extend k` (the data-model
invariant of the spec, maintained by construction in the source). -/
def STree.wellAddressed : STree → Prop
  | .node it _ cs _ => cs.wellAddressedAll it

def Children.wellAddressedAll : Children → ListItem → Prop
  | .nil, _ => True
  | .cons k c rest, it => c.item = it.extend k ∧ c.wellAddressed ∧ rest.wellAddressedAll it

end

/-- A selection tree as the module creates it: rooted at the root address
with consistent node addresses below. -/
def STree.rooted (t : STree) : Prop :=
  t.item = ListItem.root ∧ t.wellAddressed

/-- The process-wide tree starts as `new SelectionTreeType(new ListRootItem())`. -/
def freshRoot : STree :=
  freshNode .root

/-- The `selectItem(item)` operation: clear the whole tree, then select exactly `item`. -/
def selectItem (t : STree) (item : ListItem) : STree :=
  (t.clear).set item true

/-- The `item` variable after `$selection.forEach((i) => { item = i; })`:
the last selected item of the traversal, the root item when none. -/
def lastVisited (t : STree) : ListItem :=
  t.getSelected.foldl (fun _ i => i) .root

/-- A track of a GPX file as `selectAll` consumes it: only the segment
list's length is observed. -/
structure GPXTrack where
  trkseg : List Unit

/-- A GPX file as `selectAll` consumes it: only the shape of `trk` and
`wpt` is observed.  `fileObservers` is a `Map` iterated in insertion
order, modelled as an ordered association list. -/
structure GPXFileData where
  trk : List GPXTrack
  wpt : List Unit

/-- The lookup `get(fileObservers).get(fileId)`. -/
def lookupFile : List (String × GPXFileData) → String → Option GPXFileData
  | [], _ => none
  | (k, fd) :: rest, fid => if k = fid then some fd else lookupFile rest fid

/-- The `selectAll()` operation: pick the last selected item of a full traversal; for a
root or file item clear the tree and select every file; for a track,
segment or waypoint item select every sibling at that level from the file
store (without clearing); a waypoints-group item matches no branch.  An
out-of-range track index in the segment branch is undefined behaviour in
the source (a TypeError); the empty track stands in for it here. -/
def selectAll (files : List (String × GPXFileData)) (t : STree) : STree :=
  match lastVisited t with
  | .root =>
    files.foldl (fun t' fi => t'.set (.file fi.1) true) t.clear
  | .file _ =>
    files.foldl (fun t' fi => t'.set (.file fi.1) true) t.clear
  | .track fid _ =>
    match lookupFile files fid with
    | some fd => (List.range fd.trk.length).foldl (fun t' i => t'.set (.track fid i) true) t
    | none => t
  | .segment fid ti _ =>
    match lookupFile files fid with
    | some fd =>
      (List.range ((fd.trk.getD ti ⟨[]⟩).trkseg.length)).foldl
        (fun t' i => t'.set (.segment fid ti i) true) t
    | none => t
  | .waypoints _ => t
  | .waypoint fid _ =>
    match lookupFile files fid with
    | some fd => (List.range fd.wpt.length).foldl (fun t' i => t'.set (.waypoint fid i) true) t
    | none => t

/-- Modelled from the spec: the structural-nesting component of the
`sortItems` order of `FileList.ts` (absent from the excerpt): a file
before its tracks and segments, those before the waypoints group and the
waypoints, inner items ordered by index. -/
def ListItem.sortKey : ListItem → List Nat
  | .root => []
  | .file _ => [0]
  | .track _ t => [1, t]
  | .segment _ t s => [1, t, 1, s]
  | .waypoints _ => [2]
  | .waypoint _ w => [2, 1, w]

/-- Lexicographic comparison of nesting keys, shorter prefix first. -/
def keyLe : List Nat → List Nat → Bool
  | [], _ => true
  | _ :: _, [] => false
  | a :: as, b :: bs => if a < b then true else if b < a then false else keyLe as bs

/-- Modelled from the spec: the `sortItems` total order — items grouped
by file first, then by structural nesting order within the file. -/
def itemLe (a b : ListItem) : Bool :=
  if a.getFileId = b.getFileId then keyLe a.sortKey b.sortKey
  else
    match a.getFileId, b.getFileId with
    | none, _ => true
    | some _, none => false
    | some x, some y => decide (x ≤ y)

def insertLe (a : ListItem) : List ListItem → List ListItem
  | [] => [a]
  | b :: l => if itemLe a b then a :: b :: l else b :: insertLe a l

def sortAsc : List ListItem → List ListItem
  | [] => []
  | a :: l => insertLe a (sortAsc l)

/-- Modelled from the spec: `sortItems(items, reverse)` sorts by the
`ListItem` order, reversed when `reverse` is set. -/
def sortItems (items : List ListItem) (reverse : Bool) : List ListItem :=
  let s := sortAsc items
  if reverse then s.reverse else s

/-- The `instanceof` filter of the aggregation bridge: every concrete
item kind except the root item. -/
def isBridgeKind : ListItem → Bool
  | .root => false
  | .file _ => true
  | .track _ _ => true
  | .segment _ _ _ => true
  | .waypoints _ => true
  | .waypoint _ _ => true

/-- The per-file scan of the bridge: fold the selection traversal,
remembering the level of the last item of this file and accumulating the
items that pass the `instanceof` filter. -/
def bridgeScan (t : STree) (fid : String) : Option ListLevel × List ListItem :=
  t.getSelected.foldl
    (fun acc item =>
      if item.getFileId = some fid then
        (some item.level, if isBridgeKind item then acc.2 ++ [item] else acc.2)
      else acc)
    (none, [])

/-- The bridge `applyToOrderedSelectedItemsFromFile(callback, reverse)`: the list of
callback invocations `(fileId, level, items)` it performs, one per file
of the order whose scan is non-empty, with the items sorted. -/
def applyToOrderedSelectedItemsFromFile (fileOrder : List String) (t : STree)
    (reverse : Bool) : List (String × Option ListLevel × List ListItem) :=
  fileOrder.foldl
    (fun out fid =>
      let scan := bridgeScan t fid
      if scan.2.length > 0 then out ++ [(fid, scan.1, sortItems scan.2 reverse)]
      else out)
    []

/-- The selected items the bridge collects for one file, characterised
declaratively: the selected items of that file of the five non-root
kinds, in traversal order. -/
def collectFromFile (t : STree) (fid : String) : List ListItem :=
  t.getSelected.filter fun i => decide (i.getFileId = some fid) && isBridgeKind i

/-- The declarative description of one bridge entry: skip files whose
collection is empty, otherwise report the level of the last collected
item and the sorted collection. -/
def bridgeEntry (t : STree) (reverse : Bool) (fid : String) :
    Option (String × Option ListLevel × List ListItem) :=
  match collectFromFile t fid with
  | [] => none
  | l => some (fid, (l.getLast?).map ListItem.level, sortItems l reverse)

/-- One mutating call of the selection-tree interface. -/
inductive Op where
  | set (item : ListItem) (value : Bool)
  | toggle (item : ListItem)
  | deleteChild (id : Id)
  | clear

def applyOp (t : STree) : Op → STree
  | .set item v => t.set item v
  | .toggle item => t.toggle item
  | .deleteChild id => t.deleteChild id
  | .clear => t.clear

/-- The tree reached from `t` by a sequence of mutating calls. -/
def applyOps (t : STree) (ops : List Op) : STree :=
  ops.foldl applyOp t

/-! ### Basic facts about levels and addresses -/

theorem ListLevel.toNat_le_five (l : ListLevel) : l.toNat ≤ 5 := by
  cases l <;> simp [ListLevel.toNat]

theorem ListLevel.toNat_injective {l l' : ListLevel} (h : l.toNat = l'.toNat) : l = l' := by
  cases l <;> cases l' <;> simp_all [ListLevel.toNat]

theorem getIdAtLevel_level_lt {item : ListItem} {L : ListLevel} {k : Id}
    (h : item.getIdAtLevel L = some k) : L.toNat < (ListItem.level item).toNat := by
  cases item <;> cases L <;>
    simp_all [ListItem.getIdAtLevel, ListItem.level, ListLevel.toNat]

theorem extend_level_lt {ni item : ListItem} {k : Id}
    (h : item.getIdAtLevel ni.level = some k) :
    (ListItem.level ni).toNat < (ListItem.level (ni.extend k)).toNat := by
  cases ni <;> cases item <;>
    simp_all [ListItem.getIdAtLevel, ListItem.level, ListItem.extend, ListLevel.toNat] <;>
    (subst h; simp [ListItem.extend, ListItem.level, ListLevel.toNat])

/-! ### Association-list lemmas about the children mapping -/

/-- List-style induction for the children mapping, leaving the stored
subtrees opaque. -/
theorem Children.recList {motive : Children → Prop} (nil : motive .nil)
    (cons : ∀ k c rest, motive rest → motive (.cons k c rest)) :
    ∀ cs, motive cs
  | .nil => nil
  | .cons k c rest => cons k c rest (Children.recList nil cons rest)

theorem Children.hasKey_iff_lookup {cs : Children} {id : Id} :
    cs.hasKey id = true ↔ ∃ c, cs.lookup id = some c := by
  induction cs using Children.recList with
  | nil => simp [Children.hasKey, Children.lookup]
  | cons k c rest ih =>
    by_cases h : k = id <;> simp [Children.hasKey, Children.lookup, h, ih]

theorem Children.hasKey_false_lookup {cs : Children} {id : Id}
    (h : cs.hasKey id = false) : cs.lookup id = none := by
  cases hl : cs.lookup id with
  | none => rfl
  | some c =>
    have : cs.hasKey id = true := Children.hasKey_iff_lookup.2 ⟨c, hl⟩
    simp [this] at h

theorem Children.lookup_setOrToggleAt (cs : Children) (id : Id) (item : ListItem)
    (v : Option Bool) :
    (cs.setOrToggleAt id item v).lookup id =
      (cs.lookup id).map (fun c => c.setOrToggle item v) := by
  induction cs using Children.recList with
  | nil => simp [Children.setOrToggleAt, Children.lookup]
  | cons k c rest ih =>
    by_cases h : k = id <;> simp [Children.setOrToggleAt, Children.lookup, h, ih]

theorem Children.lookup_setOrToggleAt_ne {cs : Children} {id k : Id} (item : ListItem)
    (v : Option Bool) (h : k ≠ id) :
    (cs.setOrToggleAt id item v).lookup k = cs.lookup k := by
  induction cs using Children.recList with
  | nil => simp [Children.setOrToggleAt]
  | cons k' c rest ih =>
    by_cases h1 : k' = id
    · subst h1
      have h2 : ¬ k' = k := fun e => h e.symm
      simp [Children.setOrToggleAt, Children.lookup, h2]
    · by_cases h2 : k' = k
      · subst h2
        simp [Children.setOrToggleAt, Children.lookup, h1]
      · simp [Children.setOrToggleAt, Children.lookup, h1, h2, ih]

theorem Children.hasKey_setOrToggleAt (cs : Children) (id k : Id) (item : ListItem)
    (v : Option Bool) : (cs.setOrToggleAt id item v).hasKey k = cs.hasKey k := by
  induction cs using Children.recList with
  | nil => simp [Children.setOrToggleAt]
  | cons k' c rest ih =>
    by_cases h1 : k' = id <;> simp [Children.setOrToggleAt, Children.hasKey, h1, ih]

theorem Children.lookup_append_self {cs : Children} {id : Id} (c : STree)
    (h : cs.hasKey id = false) : (cs.append id c).lookup id = some c := by
  induction cs using Children.recList with
  | nil => simp [Children.append, Children.lookup]
  | cons k c0 rest ih =>
    simp [Children.hasKey] at h
    simp [Children.append, Children.lookup, h.1, ih h.2]

theorem Children.lookup_append_ne {cs : Children} {id k : Id} (c : STree)
    (h : k ≠ id) : (cs.append id c).lookup k = cs.lookup k := by
  induction cs using Children.recList with
  | nil =>
    have h2 : ¬ id = k := fun e => h e.symm
    simp [Children.append, Children.lookup, h2]
  | cons k' c0 rest ih =>
    by_cases h' : k' = k <;> simp [Children.append, Children.lookup, h', ih]

theorem Children.hasKey_append_self (cs : Children) (id : Id) (c : STree) :
    (cs.append id c).hasKey id = true := by
  induction cs using Children.recList with
  | nil => simp [Children.append, Children.hasKey]
  | cons k c0 rest ih => simp [Children.append, Children.hasKey, ih]

theorem Children.setOrToggleAt_append {cs : Children} {id : Id} (c : STree)
    (item : ListItem) (v : Option Bool) (h : cs.hasKey id = false) :
    (cs.append id c).setOrToggleAt id item v = cs.append id (c.setOrToggle item v) := by
  induction cs using Children.recList with
  | nil => simp [Children.append, Children.setOrToggleAt]
  | cons k c0 rest ih =>
    simp [Children.hasKey] at h
    simp [Children.append, Children.setOrToggleAt, h.1, ih h.2]

theorem Children.hasAt_eq_lookup (cs : Children) (id : Id) (item : ListItem) :
    cs.hasAt id item =
      (match cs.lookup id with
       | some c => c.has item
       | none => false) := by
  induction cs using Children.recList with
  | nil => simp [Children.hasAt, Children.lookup]
  | cons k c rest ih =>
    by_cases h : k = id <;> simp [Children.hasAt, Children.lookup, h, ih]

theorem Children.hasAnyParentAt_eq_lookup (cs : Children) (id : Id) (item : ListItem)
    (self : Bool) :
    cs.hasAnyParentAt id item self =
      (match cs.lookup id with
       | some c => c.hasAnyParent item self
       | none => false) := by
  induction cs using Children.recList with
  | nil => simp [Children.hasAnyParentAt, Children.lookup]
  | cons k c rest ih =>
    by_cases h : k = id <;> simp [Children.hasAnyParentAt, Children.lookup, h, ih]

theorem Children.hasAnyChildrenAt_eq_lookup (cs : Children) (id : Id) (item : ListItem)
    (self : Bool) (ign : Option (List Id)) :
    cs.hasAnyChildrenAt id item self ign =
      (match cs.lookup id with
       | some c => c.hasAnyChildren item self ign
       | none => false) := by
  induction cs using Children.recList with
  | nil => simp [Children.hasAnyChildrenAt, Children.lookup]
  | cons k c rest ih =>
    by_cases h : k = id <;> simp [Children.hasAnyChildrenAt, Children.lookup, h, ih]

theorem Children.nodeViewAt_eq_lookup (cs : Children) (k : Id) (p : List Id) :
    cs.nodeViewAt k p =
      (match cs.lookup k with
       | some c => c.nodeView p
       | none => none) := by
  induction cs using Children.recList with
  | nil => simp [Children.nodeViewAt, Children.lookup]
  | cons k' c rest ih =>
    by_cases h : k' = k <;> simp [Children.nodeViewAt, Children.lookup, h, ih]

/-! ### Counting lemmas -/

theorem Children.count_setOrToggleAt {cs : Children} {id : Id} {c : STree}
    (item : ListItem) (v : Option Bool) (h : cs.lookup id = some c) :
    (cs.setOrToggleAt id item v).count + c.count
      = cs.count + (c.setOrToggle item v).count := by
  induction cs using Children.recList with
  | nil => simp [Children.lookup] at h
  | cons k c0 rest ih =>
    by_cases h1 : k = id
    · subst h1
      simp [Children.lookup] at h
      subst h
      simp [Children.setOrToggleAt, Children.count]
      omega
    · simp [Children.lookup, h1] at h
      have h2 := ih h
      simp [Children.setOrToggleAt, Children.count, h1]
      omega

theorem Children.count_append (cs : Children) (id : Id) (c : STree) :
    (cs.append id c).count = cs.count + c.count := by
  induction cs using Children.recList with
  | nil => simp [Children.append, Children.count]
  | cons k c0 rest ih => simp [Children.append, Children.count, ih]; omega

theorem Children.count_removeKey {cs : Children} {id : Id} {c : STree}
    (h : cs.lookup id = some c) :
    (cs.removeKey id).count + c.count = cs.count := by
  induction cs using Children.recList with
  | nil => simp [Children.lookup] at h
  | cons k c0 rest ih =>
    by_cases h1 : k = id
    · subst h1
      simp [Children.lookup] at h
      subst h
      simp [Children.removeKey, Children.count]
      omega
    · simp [Children.lookup, h1] at h
      have h2 := ih h
      simp [Children.removeKey, Children.count, h1]
      omega

mutual

theorem STree.count_clear : ∀ t : STree, (t.clear).count = 0
  | .node it sel cs sz => by
    simp [STree.clear, STree.count, Children.count_clearAll cs]

theorem Children.count_clearAll : ∀ cs : Children, (cs.clearAll).count = 0
  | .nil => rfl
  | .cons k c rest => by
    simp [Children.clearAll, Children.count, STree.count_clear c,
      Children.count_clearAll rest]

end

mutual

theorem STree.count_eq_length_getSelected : ∀ t : STree,
    t.count = t.getSelected.length
  | .node it sel cs sz => by
    cases sel <;>
      simp [STree.count, STree.getSelected, Children.count_eq_length_getSelectedAll cs] <;>
      omega

theorem Children.count_eq_length_getSelectedAll : ∀ cs : Children,
    cs.count = cs.getSelectedAll.length
  | .nil => rfl
  | .cons k c rest => by
    simp [Children.count, Children.getSelectedAll, STree.count_eq_length_getSelected c,
      Children.count_eq_length_getSelectedAll rest]

end

/-! ### The size invariant and its preservation -/

theorem STree.sizeInv_size : ∀ {t : STree}, t.sizeInv → t.size = (t.count : Int)
  | .node _ _ _ _, h => h.1

theorem STree.sizeInv_children : ∀ {t : STree}, t.sizeInv → t.children.sizeInvAll
  | .node _ _ _ _, h => h.2

theorem Children.lookup_sizeInvAll : ∀ {cs : Children} {id : Id} {c : STree},
    cs.sizeInvAll → cs.lookup id = some c → c.sizeInv := by
  intro cs
  induction cs using Children.recList with
  | nil => intro id c _ h; simp [Children.lookup] at h
  | cons k c0 rest ih =>
    intro id c hall h
    by_cases h1 : k = id
    · simp [Children.lookup, h1] at h
      exact h ▸ hall.1
    · simp [Children.lookup, h1] at h
      exact ih hall.2 h

theorem Children.sizeInvAll_append : ∀ {cs : Children} {id : Id} {c : STree},
    cs.sizeInvAll → c.sizeInv → (cs.append id c).sizeInvAll := by
  intro cs
  induction cs using Children.recList with
  | nil => intro id c _ hc; exact ⟨hc, trivial⟩
  | cons k c0 rest ih =>
    intro id c hall hc
    exact ⟨hall.1, ih hall.2 hc⟩

theorem Children.sizeInvAll_removeKey : ∀ {cs : Children} (id : Id),
    cs.sizeInvAll → (cs.removeKey id).sizeInvAll := by
  intro cs
  induction cs using Children.recList with
  | nil => intro id h; exact h
  | cons k c0 rest ih =>
    intro id hall
    by_cases h1 : k = id
    · simpa [Children.removeKey, h1] using hall.2
    · simpa [Children.removeKey, h1] using ⟨hall.1, ih id hall.2⟩

theorem setFresh_item (n : Nat) (ni item : ListItem) (v : Option Bool) :
    (setFresh n ni item v).item = ni := by
  cases n with
  | zero => rfl
  | succ n =>
    simp only [setFresh]
    split
    · split <;> rfl
    · split <;> rfl

theorem setFresh_sizeInv (n : Nat) (ni item : ListItem) (v : Option Bool) :
    (setFresh n ni item v).sizeInv := by
  induction n generalizing ni with
  | zero =>
    simp [setFresh, freshNode, STree.sizeInv, Children.sizeInvAll, STree.count,
      Children.count]
  | succ n ih =>
    simp only [setFresh]
    split
    · split <;>
        simp [STree.sizeInv, Children.sizeInvAll, STree.count, Children.count]
    · split
      · simp [freshNode, STree.sizeInv, Children.sizeInvAll, STree.count, Children.count]
      · rename_i id _
        have hc := ih (ni.extend id)
        refine ⟨?_, hc, trivial⟩
        simpa [STree.count, Children.count] using STree.sizeInv_size hc

mutual

theorem STree.wellAddressed_clear : ∀ t : STree, t.wellAddressed → (t.clear).wellAddressed
  | .node it sel cs sz, h => Children.wellAddressedAll_clearAll cs it h

theorem Children.wellAddressedAll_clearAll : ∀ (cs : Children) (it : ListItem),
    cs.wellAddressedAll it → (cs.clearAll).wellAddressedAll it
  | .nil, _, h => h
  | .cons k c rest, it, h => by
    refine ⟨?_, STree.wellAddressed_clear c h.2.1, Children.wellAddressedAll_clearAll rest it h.2.2⟩
    have : (STree.clear c).item = c.item := by cases c; rfl
    rw [this, h.1]

end

mutual

theorem STree.clear_sizeInv : ∀ t : STree, (t.clear).sizeInv
  | .node it sel cs sz => by
    refine ⟨?_, Children.clearAll_sizeInvAll cs⟩
    simp [STree.clear, STree.count, Children.count_clearAll cs]

theorem Children.clearAll_sizeInvAll : ∀ cs : Children, (cs.clearAll).sizeInvAll
  | .nil => trivial
  | .cons k c rest => ⟨STree.clear_sizeInv c, Children.clearAll_sizeInvAll rest⟩

end

mutual

theorem STree.setOrToggle_sizeInv : ∀ (t : STree) (item : ListItem) (v : Option Bool),
    t.sizeInv → (t.setOrToggle item v).sizeInv
  | .node it sel cs sz, item, v, h => by
    simp only [STree.setOrToggle]
    split
    · split
      · rename_i hne
        refine ⟨?_, h.2⟩
        have h1 := h.1
        simp only [STree.count] at h1 ⊢
        rcases v with _ | b
        · cases sel <;> simp_all <;> omega
        · cases sel <;> cases b <;> simp_all <;> omega
      · exact h
    · split
      · exact h
      · rename_i id hid
        by_cases hk : cs.hasKey id
        · rw [if_pos hk]
          obtain ⟨c, hc⟩ := Children.hasKey_iff_lookup.1 hk
          have hall' := Children.setOrToggleAt_sizeInvAll cs id item v h.2
          have hc' : (cs.setOrToggleAt id item v).lookup id
              = some (c.setOrToggle item v) := by
            rw [Children.lookup_setOrToggleAt, hc]; rfl
          refine ⟨?_, hall'⟩
          have hcount := Children.count_setOrToggleAt (c := c) item v hc
          have hsz := h.1
          have hcs : c.size = (c.count : Int) :=
            STree.sizeInv_size (Children.lookup_sizeInvAll h.2 hc)
          have hcs' : (c.setOrToggle item v).size
              = ((c.setOrToggle item v).count : Int) :=
            STree.sizeInv_size (Children.lookup_sizeInvAll hall' hc')
          simp [STree.count, Children.sizeAt, hc, hc'] at *
          omega
        · rw [if_neg hk]
          have hc := setFresh_sizeInv 6 (it.extend id) item v
          refine ⟨?_, Children.sizeInvAll_append h.2 hc⟩
          have hsz := h.1
          have hcs := STree.sizeInv_size hc
          simp [STree.count, Children.count_append] at *
          omega

theorem Children.setOrToggleAt_sizeInvAll :
    ∀ (cs : Children) (id : Id) (item : ListItem) (v : Option Bool),
    cs.sizeInvAll → (cs.setOrToggleAt id item v).sizeInvAll
  | .nil, _, _, _, h => h
  | .cons k c rest, id, item, v, h => by
    rw [Children.setOrToggleAt]
    split
    · exact ⟨STree.setOrToggle_sizeInv c item v h.1, h.2⟩
    · exact ⟨h.1, Children.setOrToggleAt_sizeInvAll rest id item v h.2⟩

end

theorem STree.deleteChild_sizeInv : ∀ (t : STree) (id : Id),
    t.sizeInv → (t.deleteChild id).sizeInv
  | .node it sel cs sz, id, h => by
    rw [STree.deleteChild]
    split
    · rename_i hk
      obtain ⟨c, hc⟩ := Children.hasKey_iff_lookup.1 hk
      refine ⟨?_, Children.sizeInvAll_removeKey id h.2⟩
      have hcount := Children.count_removeKey hc
      have hsz := h.1
      have hcs : c.size = (c.count : Int) :=
        STree.sizeInv_size (Children.lookup_sizeInvAll h.2 hc)
      simp [STree.count, Children.sizeAt, hc] at *
      omega
    · exact h

theorem freshRoot_sizeInv : STree.sizeInv freshRoot := by
  simp [freshRoot, freshNode, STree.sizeInv, Children.sizeInvAll, STree.count,
    Children.count]

theorem applyOp_sizeInv {t : STree} (op : Op) (h : t.sizeInv) :
    (applyOp t op).sizeInv := by
  cases op with
  | set item v => exact STree.setOrToggle_sizeInv t item (some v) h
  | toggle item => exact STree.setOrToggle_sizeInv t item none h
  | deleteChild id => exact STree.deleteChild_sizeInv t id h
  | clear => exact STree.clear_sizeInv t

theorem applyOps_sizeInv (ops : List Op) {t : STree} (h : t.sizeInv) :
    (applyOps t ops).sizeInv := by
  induction ops generalizing t with
  | nil => exact h
  | cons op ops ih => exact ih (applyOp_sizeInv op h)

/-! ### Preservation of well-addressing -/

theorem STree.setOrToggle_item : ∀ (t : STree) (item : ListItem) (v : Option Bool),
    (t.setOrToggle item v).item = t.item
  | .node it sel cs sz, item, v => by
    simp only [STree.setOrToggle]
    split
    · split <;> rfl
    · split
      · rfl
      · split <;> rfl

theorem Children.lookup_wellAddressedAll :
    ∀ {cs : Children} {id : Id} {c : STree} {it : ListItem},
    cs.wellAddressedAll it → cs.lookup id = some c →
    c.item = it.extend id ∧ c.wellAddressed := by
  intro cs
  induction cs using Children.recList with
  | nil => intro id c it _ h; simp [Children.lookup] at h
  | cons k c0 rest ih =>
    intro id c it hall h
    by_cases h1 : k = id
    · subst h1
      simp [Children.lookup] at h
      subst h
      exact ⟨hall.1, hall.2.1⟩
    · simp [Children.lookup, h1] at h
      exact ih hall.2.2 h

theorem Children.wellAddressedAll_append :
    ∀ {cs : Children} {id : Id} {c : STree} {it : ListItem},
    cs.wellAddressedAll it → c.item = it.extend id → c.wellAddressed →
    (cs.append id c).wellAddressedAll it := by
  intro cs
  induction cs using Children.recList with
  | nil => intro id c it _ hc1 hc2; exact ⟨hc1, hc2, trivial⟩
  | cons k c0 rest ih =>
    intro id c it hall hc1 hc2
    exact ⟨hall.1, hall.2.1, ih hall.2.2 hc1 hc2⟩

theorem setFresh_wellAddressed (n : Nat) (ni item : ListItem) (v : Option Bool) :
    (setFresh n ni item v).wellAddressed := by
  induction n generalizing ni with
  | zero => trivial
  | succ n ih =>
    simp only [setFresh]
    split
    · split <;> trivial
    · split
      · trivial
      · exact ⟨setFresh_item n _ item v, ih _, trivial⟩

theorem setFresh_fuel_congr : ∀ (n m : Nat) (ni item : ListItem) (v : Option Bool),
    (ListItem.level item).toNat < (ListItem.level ni).toNat + n →
    (ListItem.level item).toNat < (ListItem.level ni).toNat + m →
    setFresh n ni item v = setFresh m ni item v := by
  intro n
  induction n with
  | zero =>
    intro m ni item v hn hm
    have hne : ¬ ListItem.level item = ListItem.level ni := by
      intro e
      rw [e] at hn
      omega
    cases m with
    | zero => rfl
    | succ m =>
      simp only [setFresh]
      rw [if_neg hne]
      cases hid : item.getIdAtLevel ni.level with
      | none => rfl
      | some k =>
        have := getIdAtLevel_level_lt hid
        rw [show ni.level = ListItem.level ni from rfl] at this
        omega
  | succ n ih =>
    intro m ni item v hn hm
    cases m with
    | zero =>
      have hne : ¬ ListItem.level item = ListItem.level ni := by
        intro e
        rw [e] at hm
        omega
      simp only [setFresh]
      rw [if_neg hne]
      cases hid : item.getIdAtLevel ni.level with
      | none => rfl
      | some k =>
        have := getIdAtLevel_level_lt hid
        rw [show ni.level = ListItem.level ni from rfl] at this
        omega
    | succ m =>
      by_cases heq : ListItem.level item = ListItem.level ni
      · simp only [setFresh]
        rw [if_pos heq, if_pos heq]
      · simp only [setFresh]
        rw [if_neg heq, if_neg heq]
        cases hid : item.getIdAtLevel ni.level with
        | none => rfl
        | some k =>
          have hlt := extend_level_lt hid
          dsimp only
          rw [ih m (ni.extend k) item v (by omega) (by omega)]

/-- One-step unfolding of `setFresh` at positive fuel. -/
theorem setFresh_succ (n : Nat) (ni item : ListItem) (v : Option Bool) :
    setFresh (n + 1) ni item v
      = (if item.level = ni.level then
          (if (match v with | none => true | some b => b) then
            .node ni true .nil 1
          else .node ni false .nil 0)
        else
          match item.getIdAtLevel ni.level with
          | none => freshNode ni
          | some id =>
            .node ni false (.cons id (setFresh n (ni.extend id) item v) .nil)
              (setFresh n (ni.extend id) item v).size) := rfl

/-- Certification of the `setFresh` inlining: running `_setOrToggle` on a
freshly created node is exactly `setFresh` at fuel 6, for every item (the
deepest level being 5, the fuel never runs out). -/
theorem setOrToggle_freshNode (ni item : ListItem) (v : Option Bool) :
    STree.setOrToggle (freshNode ni) item v = setFresh 6 ni item v := by
  have hfive := ListLevel.toNat_le_five (ListItem.level item)
  rw [show (6 : Nat) = 5 + 1 from rfl, setFresh_succ]
  by_cases heq : ListItem.level item = ListItem.level ni
  · rw [if_pos heq]
    simp only [freshNode, STree.setOrToggle]
    rw [if_pos heq]
    cases v with
    | none => simp
    | some b => cases b <;> simp
  · rw [if_neg heq]
    simp only [freshNode, STree.setOrToggle]
    rw [if_neg heq]
    cases hid : item.getIdAtLevel ni.level with
    | none => rfl
    | some k =>
      dsimp only
      rw [show Children.hasKey .nil k = false from rfl]
      simp only [Bool.false_eq_true, if_false]
      rw [setFresh_fuel_congr 6 5 (ni.extend k) item v (by omega)
        (by have := extend_level_lt hid; omega)]
      simp [Children.append]

mutual

theorem STree.setOrToggle_wellAddressed : ∀ (t : STree) (item : ListItem) (v : Option Bool),
    t.wellAddressed → (t.setOrToggle item v).wellAddressed
  | .node it sel cs sz, item, v, h => by
    simp only [STree.setOrToggle]
    split
    · split
      · exact h
      · exact h
    · split
      · exact h
      · rename_i id _
        by_cases hk : cs.hasKey id
        · rw [if_pos hk]
          exact Children.setOrToggleAt_wellAddressedAll cs id item v it h
        · rw [if_neg hk]
          exact Children.wellAddressedAll_append h (setFresh_item 6 _ item v)
            (setFresh_wellAddressed 6 _ item v)

theorem Children.setOrToggleAt_wellAddressedAll :
    ∀ (cs : Children) (id : Id) (item : ListItem) (v : Option Bool) (it : ListItem),
    cs.wellAddressedAll it → (cs.setOrToggleAt id item v).wellAddressedAll it
  | .nil, _, _, _, _, h => h
  | .cons k c rest, id, item, v, it, h => by
    simp only [Children.setOrToggleAt]
    split
    · refine ⟨?_, STree.setOrToggle_wellAddressed c item v h.2.1, h.2.2⟩
      rw [STree.setOrToggle_item c item v, h.1]
    · exact ⟨h.1, h.2.1, Children.setOrToggleAt_wellAddressedAll rest id item v it h.2.2⟩

end

theorem STree.setOrToggle_rooted {t : STree} (item : ListItem) (v : Option Bool)
    (h : t.rooted) : (t.setOrToggle item v).rooted :=
  ⟨by rw [STree.setOrToggle_item]; exact h.1,
   STree.setOrToggle_wellAddressed t item v h.2⟩

theorem freshRoot_rooted : STree.rooted freshRoot :=
  ⟨rfl, trivial⟩

/-! ### The walk toward an item from the root -/

/-- The addresses of the nodes the walk toward `item` passes through,
root first: each is obtained from the previous by `extend` at the key
`getIdAtLevel` yields. -/
def pathNodes : ListItem → List ListItem
  | .root => [.root]
  | .file f => [.root, .file f]
  | .track f t => [.root, .file f, .track f t]
  | .segment f t s => [.root, .file f, .track f t, .segment f t s]
  | .waypoints f => [.root, .file f, .waypoints f]
  | .waypoint f w => [.root, .file f, .waypoints f, .waypoint f w]

theorem root_mem_pathNodes (item : ListItem) : ListItem.root ∈ pathNodes item := by
  cases item <;> simp [pathNodes]

theorem pathNodes_level_le {ni item : ListItem} (h : ni ∈ pathNodes item) :
    (ListItem.level ni).toNat ≤ (ListItem.level item).toNat := by
  cases ni <;> cases item <;>
    simp_all [pathNodes, ListItem.level, ListLevel.toNat]

theorem pathNodes_get_isSome {ni item : ListItem} (h : ni ∈ pathNodes item)
    (hne : ListItem.level item ≠ ListItem.level ni) :
    (item.getIdAtLevel ni.level).isSome = true := by
  cases ni <;> cases item <;>
    simp_all [pathNodes, ListItem.level, ListItem.getIdAtLevel]

theorem pathNodes_extend_mem {ni item : ListItem} {k : Id} (h : ni ∈ pathNodes item)
    (hk : item.getIdAtLevel ni.level = some k) :
    ni.extend k ∈ pathNodes item := by
  cases ni <;> cases item <;>
    simp_all [pathNodes, ListItem.level, ListItem.getIdAtLevel] <;>
    (subst hk; simp [ListItem.extend])

/-! ### `set` followed by `has` -/

theorem has_set_base {it : ListItem} (sel : Bool) (cs : Children) (sz : Int)
    {item : ListItem} (v : Bool) (heq : ListItem.level item = ListItem.level it) :
    (STree.setOrToggle (.node it sel cs sz) item (some v)).has item = v := by
  simp only [STree.setOrToggle, if_pos heq]
  split
  · simp [STree.has, if_pos heq]
  · rename_i hsame
    have hv : sel = v := by simpa using hsame
    subst hv
    simp [STree.has, if_pos heq]

theorem has_setFresh : ∀ (n : Nat) (ni item : ListItem) (v : Bool),
    ni ∈ pathNodes item →
    (ListItem.level item).toNat < (ListItem.level ni).toNat + n →
    (setFresh n ni item (some v)).has item = v := by
  intro n
  induction n with
  | zero =>
    intro ni item v hmem hlt
    have := pathNodes_level_le hmem
    omega
  | succ n ih =>
    intro ni item v hmem hlt
    simp only [setFresh]
    by_cases heq : ListItem.level item = ListItem.level ni
    · rw [if_pos heq]
      cases v <;> simp [STree.has, if_pos heq]
    · rw [if_neg heq]
      obtain ⟨k, hk⟩ := Option.isSome_iff_exists.1 (pathNodes_get_isSome hmem heq)
      have hmem' := pathNodes_extend_mem hmem hk
      have hlt' : (ListItem.level item).toNat < (ListItem.level (ni.extend k)).toNat + n := by
        have := extend_level_lt hk
        omega
      have hrec := ih (ni.extend k) item v hmem' hlt'
      simp [STree.has, if_neg heq, hk, Children.hasAt, hrec]

theorem has_set_aux : ∀ (n : Nat) (t : STree) (item : ListItem) (v : Bool),
    t.wellAddressed → t.item ∈ pathNodes item →
    (ListItem.level item).toNat < (ListItem.level t.item).toNat + n →
    (t.set item v).has item = v := by
  intro n
  induction n with
  | zero =>
    intro t item v _ hmem hlt
    have := pathNodes_level_le hmem
    omega
  | succ n ih =>
    intro t item v hwa hmem hlt
    cases t with
    | node it sel cs sz =>
      simp only [STree.item] at hmem hlt
      by_cases heq : ListItem.level item = ListItem.level it
      · exact has_set_base sel cs sz v heq
      · simp only [STree.set, STree.setOrToggle]
        rw [if_neg heq]
        obtain ⟨k, hk⟩ := Option.isSome_iff_exists.1 (pathNodes_get_isSome hmem heq)
        rw [hk]
        dsimp only
        have hmem' := pathNodes_extend_mem hmem hk
        have hlt' : (ListItem.level item).toNat < (ListItem.level (it.extend k)).toNat + n := by
          have := extend_level_lt hk
          omega
        by_cases hkey : cs.hasKey k
        · rw [if_pos hkey]
          obtain ⟨c, hc⟩ := Children.hasKey_iff_lookup.1 hkey
          obtain ⟨hcit, hcwa⟩ := Children.lookup_wellAddressedAll hwa hc
          have hrec := ih c item v hcwa (hcit ▸ hmem') (hcit ▸ hlt')
          simp only [STree.set] at hrec
          simp [STree.has, if_neg heq, hk, Children.hasAt_eq_lookup,
            Children.lookup_setOrToggleAt, hc, hrec]
        · rw [if_neg hkey]
          have hkey' : cs.hasKey k = false := by simpa using hkey
          have hfr := has_setFresh 6 (it.extend k) item v hmem' (by
            have := ListLevel.toNat_le_five (ListItem.level item)
            omega)
          simp [STree.has, if_neg heq, hk, Children.hasAt_eq_lookup,
            Children.lookup_append_self _ hkey', hfr]

theorem has_set_of_rooted (t : STree) (item : ListItem) (v : Bool) (h : t.rooted) :
    (t.set item v).has item = v := by
  refine has_set_aux 6 t item v h.2 ?_ ?_
  · rw [h.1]
    exact root_mem_pathNodes item
  · rw [h.1]
    have h5 := ListLevel.toNat_le_five (ListItem.level item)
    have h0 : (ListItem.level ListItem.root).toNat = 0 := rfl
    omega

/-! ### Queries on a fully unselected tree -/

mutual

theorem STree.clear_allOff : ∀ t : STree, (t.clear).allOff
  | .node it sel cs sz => ⟨rfl, Children.clearAll_allOffAll cs⟩

theorem Children.clearAll_allOffAll : ∀ cs : Children, (cs.clearAll).allOffAll
  | .nil => trivial
  | .cons k c rest => ⟨STree.clear_allOff c, Children.clearAll_allOffAll rest⟩

end

mutual

theorem STree.has_allOff : ∀ (t : STree) (item : ListItem),
    t.allOff → t.has item = false
  | .node it sel cs sz, item, h => by
    simp only [STree.has]
    split
    · exact h.1
    · split
      · exact Children.hasAt_allOff cs _ item h.2
      · rfl

theorem Children.hasAt_allOff : ∀ (cs : Children) (id : Id) (item : ListItem),
    cs.allOffAll → cs.hasAt id item = false
  | .nil, _, _, _ => rfl
  | .cons k c rest, id, item, h => by
    simp only [Children.hasAt]
    split
    · exact STree.has_allOff c item h.1
    · exact Children.hasAt_allOff rest id item h.2

end

mutual

theorem STree.hasAnyParent_allOff : ∀ (t : STree) (item : ListItem) (self : Bool),
    t.allOff → t.hasAnyParent item self = false
  | .node it sel cs sz, item, self, h => by
    simp only [STree.hasAnyParent]
    split
    · exact h.1
    · split
      · exact Children.hasAnyParentAt_allOff cs _ item self h.2
      · rfl

theorem Children.hasAnyParentAt_allOff : ∀ (cs : Children) (id : Id) (item : ListItem)
    (self : Bool), cs.allOffAll → cs.hasAnyParentAt id item self = false
  | .nil, _, _, _, _ => rfl
  | .cons k c rest, id, item, self, h => by
    simp only [Children.hasAnyParentAt]
    split
    · exact STree.hasAnyParent_allOff c item self h.1
    · exact Children.hasAnyParentAt_allOff rest id item self h.2

end

mutual

theorem STree.hasAnyChildren_allOff : ∀ (t : STree) (item : ListItem) (self : Bool)
    (ign : Option (List Id)), t.allOff → t.hasAnyChildren item self ign = false
  | .node it sel cs sz, item, self, ign, h => by
    simp only [STree.hasAnyChildren]
    split
    · exact h.1
    · split
      · split
        · rfl
        · exact Children.hasAnyChildrenAt_allOff cs _ item self ign h.2
      · exact Children.hasAnyChildrenAny_allOff cs item self ign h.2

theorem Children.hasAnyChildrenAt_allOff : ∀ (cs : Children) (id : Id) (item : ListItem)
    (self : Bool) (ign : Option (List Id)),
    cs.allOffAll → cs.hasAnyChildrenAt id item self ign = false
  | .nil, _, _, _, _, _ => rfl
  | .cons k c rest, id, item, self, ign, h => by
    simp only [Children.hasAnyChildrenAt]
    split
    · exact STree.hasAnyChildren_allOff c item self ign h.1
    · exact Children.hasAnyChildrenAt_allOff rest id item self ign h.2

theorem Children.hasAnyChildrenAny_allOff : ∀ (cs : Children) (item : ListItem)
    (self : Bool) (ign : Option (List Id)),
    cs.allOffAll → cs.hasAnyChildrenAny item self ign = false
  | .nil, _, _, _, _ => rfl
  | .cons k c rest, item, self, ign, h => by
    simp only [Children.hasAnyChildrenAny]
    split
    · exact Children.hasAnyChildrenAny_allOff rest item self ign h.2
    · rw [STree.hasAnyChildren_allOff c item self ign h.1,
        Children.hasAnyChildrenAny_allOff rest item self ign h.2]
      rfl

end

mutual

theorem STree.getSelected_allOff : ∀ t : STree, t.allOff → t.getSelected = []
  | .node it sel cs sz, h => by
    rw [show sel = false from h.1] at *
    simp [STree.getSelected, Children.getSelectedAll_allOff cs h.2]

theorem Children.getSelectedAll_allOff : ∀ cs : Children,
    cs.allOffAll → cs.getSelectedAll = []
  | .nil, _ => rfl
  | .cons k c rest, h => by
    simp [Children.getSelectedAll, STree.getSelected_allOff c h.1,
      Children.getSelectedAll_allOff rest h.2]

end

theorem Children.lookup_clearAll (cs : Children) (k : Id) :
    (cs.clearAll).lookup k = (cs.lookup k).map STree.clear := by
  induction cs using Children.recList with
  | nil => simp [Children.clearAll, Children.lookup]
  | cons k' c rest ih =>
    by_cases h : k' = k <;> simp [Children.clearAll, Children.lookup, h, ih]

theorem STree.nodeView_clear : ∀ (p : List Id) (t : STree),
    (t.clear).nodeView p = (t.nodeView p).map (fun x => (x.1, false, 0)) := by
  intro p
  induction p with
  | nil =>
    intro t
    cases t
    simp [STree.clear, STree.nodeView]
  | cons k p ih =>
    intro t
    cases t with
    | node it sel cs sz =>
      simp only [STree.clear, STree.nodeView, Children.nodeViewAt_eq_lookup,
        Children.lookup_clearAll]
      cases cs.lookup k <;> simp [ih]

/-! ### Selection confined to one level -/

mutual

/-- Every selected node of the subtree sits at level `l`. -/
def STree.onlyLevel : STree → ListLevel → Prop
  | .node it sel cs _, l => (sel = true → it.level = l) ∧ cs.onlyLevelAll l

def Children.onlyLevelAll : Children → ListLevel → Prop
  | .nil, _ => True
  | .cons _ c rest, l => c.onlyLevel l ∧ rest.onlyLevelAll l

end

mutual

theorem STree.allOff_onlyLevel : ∀ (t : STree) (l : ListLevel),
    t.allOff → t.onlyLevel l
  | .node it sel cs sz, l, h =>
    ⟨fun hs => absurd (h.1 ▸ hs) (by simp), Children.allOffAll_onlyLevelAll cs l h.2⟩

theorem Children.allOffAll_onlyLevelAll : ∀ (cs : Children) (l : ListLevel),
    cs.allOffAll → cs.onlyLevelAll l
  | .nil, _, _ => trivial
  | .cons k c rest, l, h =>
    ⟨STree.allOff_onlyLevel c l h.1, Children.allOffAll_onlyLevelAll rest l h.2⟩

end

theorem Children.onlyLevelAll_append : ∀ {cs : Children} {id : Id} {c : STree}
    {l : ListLevel}, cs.onlyLevelAll l → c.onlyLevel l →
    (cs.append id c).onlyLevelAll l := by
  intro cs
  induction cs using Children.recList with
  | nil => intro id c l _ hc; exact ⟨hc, trivial⟩
  | cons k c0 rest ih =>
    intro id c l hall hc
    exact ⟨hall.1, ih hall.2 hc⟩

theorem setFresh_onlyLevel (n : Nat) (ni item : ListItem) (v : Option Bool) :
    (setFresh n ni item v).onlyLevel item.level := by
  induction n generalizing ni with
  | zero => exact ⟨fun hs => by simp [freshNode] at hs, trivial⟩
  | succ n ih =>
    simp only [setFresh]
    split
    · rename_i heq
      split
      · exact ⟨fun _ => heq.symm, trivial⟩
      · exact ⟨fun hs => by simp at hs, trivial⟩
    · split
      · exact ⟨fun hs => by simp [freshNode] at hs, trivial⟩
      · exact ⟨fun hs => by simp at hs, ih _, trivial⟩

mutual

theorem STree.setOrToggle_onlyLevel : ∀ (t : STree) (item : ListItem) (v : Option Bool),
    t.onlyLevel item.level → (t.setOrToggle item v).onlyLevel item.level
  | .node it sel cs sz, item, v, h => by
    simp only [STree.setOrToggle]
    split
    · rename_i heq
      split
      · exact ⟨fun _ => heq.symm, h.2⟩
      · exact h
    · split
      · exact h
      · rename_i id _
        by_cases hk : cs.hasKey id
        · rw [if_pos hk]
          exact ⟨h.1, Children.setOrToggleAt_onlyLevelAll cs id item v h.2⟩
        · rw [if_neg hk]
          exact ⟨h.1, Children.onlyLevelAll_append h.2 (setFresh_onlyLevel 6 _ item v)⟩

theorem Children.setOrToggleAt_onlyLevelAll :
    ∀ (cs : Children) (id : Id) (item : ListItem) (v : Option Bool),
    cs.onlyLevelAll item.level → (cs.setOrToggleAt id item v).onlyLevelAll item.level
  | .nil, _, _, _, h => h
  | .cons k c rest, id, item, v, h => by
    simp only [Children.setOrToggleAt]
    split
    · exact ⟨STree.setOrToggle_onlyLevel c item v h.1, h.2⟩
    · exact ⟨h.1, Children.setOrToggleAt_onlyLevelAll rest id item v h.2⟩

end

mutual

theorem STree.hasAnyParent_onlyLevel : ∀ (t : STree) (item : ListItem),
    t.onlyLevel item.level → t.hasAnyParent item false = false
  | .node it sel cs sz, item, h => by
    simp only [STree.hasAnyParent]
    rw [if_neg]
    · split
      · exact Children.hasAnyParentAt_onlyLevel cs _ item h.2
      · rfl
    · rintro ⟨hs, _, hor⟩
      have hl : it.level = item.level := h.1 hs
      rcases hor with hor | hor
      · simp at hor
      · rw [hl] at hor
        omega

theorem Children.hasAnyParentAt_onlyLevel : ∀ (cs : Children) (id : Id) (item : ListItem),
    cs.onlyLevelAll item.level → cs.hasAnyParentAt id item false = false
  | .nil, _, _, _ => rfl
  | .cons k c rest, id, item, h => by
    simp only [Children.hasAnyParentAt]
    split
    · exact STree.hasAnyParent_onlyLevel c item h.1
    · exact Children.hasAnyParentAt_onlyLevel rest id item h.2

end

/-! ### The threaded queries neither answer differently nor write -/

mutual

theorem STree.hasT_eq : ∀ (t : STree) (item : ListItem),
    t.hasT item = (t.has item, t)
  | .node it sel cs sz, item => by
    simp only [STree.hasT, STree.has]
    split
    · rfl
    · split
      · rw [Children.hasAtT_eq cs _ item]
      · rfl

theorem Children.hasAtT_eq : ∀ (cs : Children) (id : Id) (item : ListItem),
    cs.hasAtT id item = (cs.hasAt id item, cs)
  | .nil, _, _ => rfl
  | .cons k c rest, id, item => by
    simp only [Children.hasAtT, Children.hasAt]
    split
    · rw [STree.hasT_eq c item]
    · rw [Children.hasAtT_eq rest id item]

end

mutual

theorem STree.hasAnyParentT_eq : ∀ (t : STree) (item : ListItem) (self : Bool),
    t.hasAnyParentT item self = (t.hasAnyParent item self, t)
  | .node it sel cs sz, item, self => by
    simp only [STree.hasAnyParentT, STree.hasAnyParent]
    split
    · rfl
    · split
      · rw [Children.hasAnyParentAtT_eq cs _ item self]
      · rfl

theorem Children.hasAnyParentAtT_eq : ∀ (cs : Children) (id : Id) (item : ListItem)
    (self : Bool), cs.hasAnyParentAtT id item self = (cs.hasAnyParentAt id item self, cs)
  | .nil, _, _, _ => rfl
  | .cons k c rest, id, item, self => by
    simp only [Children.hasAnyParentAtT, Children.hasAnyParentAt]
    split
    · rw [STree.hasAnyParentT_eq c item self]
    · rw [Children.hasAnyParentAtT_eq rest id item self]

end

mutual

theorem STree.hasAnyChildrenT_eq : ∀ (t : STree) (item : ListItem) (self : Bool)
    (ign : Option (List Id)),
    t.hasAnyChildrenT item self ign = (t.hasAnyChildren item self ign, t)
  | .node it sel cs sz, item, self, ign => by
    simp only [STree.hasAnyChildrenT, STree.hasAnyChildren]
    split
    · rfl
    · split
      · split
        · rfl
        · rw [Children.hasAnyChildrenAtT_eq cs _ item self ign]
      · rw [Children.hasAnyChildrenAnyT_eq cs item self ign]

theorem Children.hasAnyChildrenAtT_eq : ∀ (cs : Children) (id : Id) (item : ListItem)
    (self : Bool) (ign : Option (List Id)),
    cs.hasAnyChildrenAtT id item self ign = (cs.hasAnyChildrenAt id item self ign, cs)
  | .nil, _, _, _, _ => rfl
  | .cons k c rest, id, item, self, ign => by
    simp only [Children.hasAnyChildrenAtT, Children.hasAnyChildrenAt]
    split
    · rw [STree.hasAnyChildrenT_eq c item self ign]
    · rw [Children.hasAnyChildrenAtT_eq rest id item self ign]

theorem Children.hasAnyChildrenAnyT_eq : ∀ (cs : Children) (item : ListItem)
    (self : Bool) (ign : Option (List Id)),
    cs.hasAnyChildrenAnyT item self ign = (cs.hasAnyChildrenAny item self ign, cs)
  | .nil, _, _, _ => rfl
  | .cons k c rest, item, self, ign => by
    simp only [Children.hasAnyChildrenAnyT, Children.hasAnyChildrenAny]
    split
    · rw [Children.hasAnyChildrenAnyT_eq rest item self ign]
    · rw [STree.hasAnyChildrenT_eq c item self ign,
        Children.hasAnyChildrenAnyT_eq rest item self ign]
      cases hb : c.hasAnyChildren item self ign <;> simp

end

/-! ### Deleting a child under unique keys -/

theorem Children.lookup_not_mem {cs : Children} {id : Id} (h : id ∉ cs.keys) :
    cs.lookup id = none := by
  induction cs using Children.recList with
  | nil => rfl
  | cons k c rest ih =>
    simp [Children.keys] at h
    have h1 : ¬ k = id := fun e => h.1 e.symm
    simp [Children.lookup, h1, ih h.2]

theorem Children.lookup_removeKey_self {cs : Children} (id : Id)
    (hnd : cs.keys.Nodup) : (cs.removeKey id).lookup id = none := by
  induction cs using Children.recList with
  | nil => rfl
  | cons k c rest ih =>
    simp [Children.keys, List.nodup_cons] at hnd
    by_cases h : k = id
    · subst h
      simp [Children.removeKey, Children.lookup_not_mem hnd.1]
    · simp [Children.removeKey, Children.lookup, h, ih hnd.2]

/-! ### Claim theorems (part one) -/

/-- C1: for every selection tree reachable from the fresh root tree by a
finite sequence of `set`, `toggle`, `deleteChild` and `clear` operations
on well-formed `ListItem`s, the `size` field of every node equals the
number of selected nodes of that node's subtree (itself included), and in
particular the root's `size` equals `getSelected().length`. -/
theorem c1_size_invariant (ops : List Op) :
    (applyOps freshRoot ops).sizeInv ∧
      (applyOps freshRoot ops).size
        = ((applyOps freshRoot ops).getSelected.length : Int) := by
  have h := applyOps_sizeInv ops freshRoot_sizeInv
  exact ⟨h, by rw [STree.sizeInv_size h, STree.count_eq_length_getSelected]⟩

/-- C4: `clear()` resets `selected = false` and `size = 0` at every
existing node while keeping the children mapping's keys and nodes in
place (the view of every key path keeps its address, with flag `false`
and size `0`, and absent paths stay absent), and immediately afterwards
`has`, `hasAnyParent` and `hasAnyChildren` are false and `getSelected` is
empty for every item. -/
theorem c4_clear_resets (t : STree) (item : ListItem) (self : Bool)
    (ign : Option (List Id)) (p : List Id) :
    (t.clear).nodeView p = (t.nodeView p).map (fun x => (x.1, false, 0)) ∧
      (t.clear).has item = false ∧
      (t.clear).hasAnyParent item self = false ∧
      (t.clear).hasAnyChildren item self ign = false ∧
      (t.clear).getSelected = [] :=
  ⟨STree.nodeView_clear p t,
   STree.has_allOff _ item (STree.clear_allOff t),
   STree.hasAnyParent_allOff _ item self (STree.clear_allOff t),
   STree.hasAnyChildren_allOff _ item self ign (STree.clear_allOff t),
   STree.getSelected_allOff _ (STree.clear_allOff t)⟩

/-- C5: on every selection tree (rooted at the root address with
consistent node addresses, as the module maintains) and every well-formed
item, `set(item, true)` makes `has(item)` true, and a following
`set(item, false)` makes it false again. -/
theorem c5_set_has_roundtrip (t : STree) (item : ListItem) (h : t.rooted) :
    (t.set item true).has item = true ∧
      ((t.set item true).set item false).has item = false :=
  ⟨has_set_of_rooted t item true h,
   has_set_of_rooted (t.set item true) item false
     (STree.setOrToggle_rooted item (some true) h)⟩

/-- Witness for C5 at the fresh root tree and a concrete track item. -/
theorem c5_set_has_roundtrip_witness :
    (STree.set freshRoot (.track "f1" 0) true).has (.track "f1" 0) = true ∧
      ((STree.set freshRoot (.track "f1" 0) true).set (.track "f1" 0) false).has
          (.track "f1" 0) = false :=
  c5_set_has_roundtrip freshRoot (.track "f1" 0) freshRoot_rooted

/-- C7: immediately after `selectItem(item)` — clear the tree, then set
exactly `item` — no strict ancestor of `item` is selected:
`hasAnyParent(item, self = false)` is false. -/
theorem c7_selectItem_no_strict_ancestor (t : STree) (item : ListItem) :
    (selectItem t item).hasAnyParent item false = false := by
  have h1 : (t.clear).onlyLevel item.level :=
    STree.allOff_onlyLevel _ _ (STree.clear_allOff t)
  exact STree.hasAnyParent_onlyLevel _ item
    (STree.setOrToggle_onlyLevel _ item (some true) h1)

/-- C8: for every node and every id present in its children mapping (keys
are unique in a JavaScript object), `deleteChild(id)` decreases the
node's `size` by exactly the removed child's `size`, removes the entry,
and drops the whole subtree's selection state from the count. -/
theorem c8_deleteChild (it : ListItem) (sel : Bool) (cs : Children) (sz : Int)
    (id : Id) {c : STree} (hnd : cs.keys.Nodup) (hc : cs.lookup id = some c) :
    (STree.deleteChild (.node it sel cs sz) id).size = sz - c.size ∧
      (STree.deleteChild (.node it sel cs sz) id).getChild id = none ∧
      STree.count (STree.deleteChild (.node it sel cs sz) id) + c.count
        = STree.count (.node it sel cs sz) := by
  have hk : cs.hasKey id = true := Children.hasKey_iff_lookup.2 ⟨c, hc⟩
  simp only [STree.deleteChild]
  rw [if_pos hk]
  refine ⟨?_, ?_, ?_⟩
  · simp [STree.size, Children.sizeAt, hc]
  · simp [STree.getChild, STree.children, Children.lookup_removeKey_self id hnd]
  · have h2 := Children.count_removeKey hc
    simp only [STree.count]
    omega

/-- The example tree of C8: one file with two selected tracks and one
selected waypoint, so the file child's subtree has size 3. -/
def c8ExampleTree : STree :=
  ((freshRoot.set (.track "f" 0) true).set (.track "f" 1) true).set
    (.waypoint "f" 0) true

/-- Witness for C8: deleting the file child of subtree size 3 brings the
root's size to 0 and removes the entry. -/
theorem c8_deleteChild_witness :
    (c8ExampleTree.deleteChild (.str "f")).size = 0 ∧
      (c8ExampleTree.deleteChild (.str "f")).getChild (.str "f") = none := by
  have h := c8_deleteChild ListItem.root false c8ExampleTree.children 3 (.str "f")
    (by decide) rfl
  exact ⟨h.1.trans (by decide), h.2.1⟩

/-- C9: `has` is total (it returns a boolean for every tree and item),
read-only (threading the receiver through the walk returns it unchanged),
and returns false rather than failing when `getIdAtLevel` is undefined or
the required child entry is absent. -/
theorem c9_has_total_readonly (it : ListItem) (sel : Bool) (cs : Children) (sz : Int)
    (item : ListItem) :
    STree.hasT (.node it sel cs sz) item
        = (STree.has (.node it sel cs sz) item, .node it sel cs sz) ∧
      (STree.has (.node it sel cs sz) item = true ∨
        STree.has (.node it sel cs sz) item = false) ∧
      (¬ ListItem.level item = ListItem.level it →
        (item.getIdAtLevel it.level = none →
            STree.has (.node it sel cs sz) item = false) ∧
          (∀ k, item.getIdAtLevel it.level = some k → cs.hasKey k = false →
            STree.has (.node it sel cs sz) item = false)) := by
  refine ⟨STree.hasT_eq _ item, ?_, ?_⟩
  · cases STree.has (.node it sel cs sz) item <;> simp
  · intro hne
    constructor
    · intro hid
      simp [STree.has, if_neg hne, hid]
    · intro k hk hkey
      simp [STree.has, if_neg hne, hk, Children.hasAt_eq_lookup,
        Children.hasKey_false_lookup hkey]

/-- Witness for C9: a node at file level, an item below it with the child
entry absent — `has` returns false. -/
theorem c9_has_total_readonly_witness :
    STree.has (.node (.file "a") false .nil 0) (.track "a" 0) = false :=
  ((c9_has_total_readonly (.file "a") false .nil 0 (.track "a" 0)).2.2
    (by decide)).2 (.num 0) rfl rfl

/-- C10: `hasAnyParent` and `hasAnyChildren` leave the tree completely
unchanged: threading the receiver through each walk as explicit state
returns the same tree, for every item, `self` flag and ignore list. -/
theorem c10_queries_frame (t : STree) (item : ListItem) (self : Bool)
    (ign : Option (List Id)) :
    t.hasAnyParentT item self = (t.hasAnyParent item self, t) ∧
      t.hasAnyChildrenT item self ign = (t.hasAnyChildren item self ign, t) :=
  ⟨STree.hasAnyParentT_eq t item self, STree.hasAnyChildrenT_eq t item self ign⟩

/-! ### Double toggle is pure path allocation -/

theorem freshPath_size (n : Nat) (ni item : ListItem) :
    (freshPath n ni item).size = 0 := by
  cases n with
  | zero => rfl
  | succ n =>
    simp only [freshPath]
    split
    · rfl
    · split <;> rfl

theorem STree.pathTouch_fields : ∀ (t : STree) (item : ListItem),
    (t.pathTouch item).item = t.item ∧ (t.pathTouch item).selected = t.selected ∧
      (t.pathTouch item).size = t.size
  | .node it sel cs sz, item => by
    simp only [STree.pathTouch]
    split
    · exact ⟨rfl, rfl, rfl⟩
    · split
      · exact ⟨rfl, rfl, rfl⟩
      · split <;> exact ⟨rfl, rfl, rfl⟩

theorem Children.lookup_pathTouchAt (cs : Children) (id : Id) (item : ListItem) :
    (cs.pathTouchAt id item).lookup id = (cs.lookup id).map (fun c => c.pathTouch item) := by
  induction cs using Children.recList with
  | nil => simp [Children.pathTouchAt, Children.lookup]
  | cons k c rest ih =>
    by_cases h : k = id <;> simp [Children.pathTouchAt, Children.lookup, h, ih]

theorem Children.lookup_pathTouchAt_ne {cs : Children} {id k : Id} (item : ListItem)
    (h : k ≠ id) : (cs.pathTouchAt id item).lookup k = cs.lookup k := by
  induction cs using Children.recList with
  | nil => simp [Children.pathTouchAt]
  | cons k' c rest ih =>
    by_cases h1 : k' = id
    · subst h1
      have h2 : ¬ k' = k := fun e => h e.symm
      simp [Children.pathTouchAt, Children.lookup, h2]
    · by_cases h2 : k' = k
      · subst h2
        simp [Children.pathTouchAt, Children.lookup, h1]
      · simp [Children.pathTouchAt, Children.lookup, h1, h2, ih]

theorem toggle_twice_setFresh : ∀ (n : Nat) (ni item : ListItem),
    (ListItem.level item).toNat < (ListItem.level ni).toNat + n →
    STree.setOrToggle (setFresh n ni item none) item none = freshPath n ni item := by
  intro n
  induction n with
  | zero =>
    intro ni item hlt
    have hne : ¬ ListItem.level item = ListItem.level ni := by
      intro e
      rw [e] at hlt
      omega
    simp only [setFresh, freshPath, freshNode, STree.setOrToggle]
    rw [if_neg hne]
    cases hid : item.getIdAtLevel ni.level with
    | none => rfl
    | some k =>
      have := getIdAtLevel_level_lt hid
      rw [show ni.level = ListItem.level ni from rfl] at this
      omega
  | succ n ih =>
    intro ni item hlt
    by_cases heq : ListItem.level item = ListItem.level ni
    · have h1 : setFresh (n + 1) ni item none = .node ni true .nil 1 := by
        simp [setFresh, if_pos heq]
      have h2 : freshPath (n + 1) ni item = freshNode ni := by
        simp [freshPath, if_pos heq]
      rw [h1, h2]
      simp only [STree.setOrToggle, if_pos heq]
      norm_num [freshNode]
    · have h2 : freshPath (n + 1) ni item =
          (match item.getIdAtLevel ni.level with
           | none => freshNode ni
           | some id => .node ni false (.cons id (freshPath n (ni.extend id) item) .nil) 0) := by
        simp [freshPath, if_neg heq]
      have h1 : setFresh (n + 1) ni item none =
          (match item.getIdAtLevel ni.level with
           | none => freshNode ni
           | some id =>
             .node ni false (.cons id (setFresh n (ni.extend id) item none) .nil)
               (setFresh n (ni.extend id) item none).size) := by
        simp [setFresh, if_neg heq]
      rw [h1, h2]
      cases hid : item.getIdAtLevel ni.level with
      | none =>
        simp only [freshNode, STree.setOrToggle]
        rw [if_neg heq, hid]
      | some k =>
        have hlt' : (ListItem.level item).toNat < (ListItem.level (ni.extend k)).toNat + n := by
          have := extend_level_lt hid
          omega
        dsimp only
        simp only [STree.setOrToggle]
        rw [if_neg heq, hid]
        dsimp only
        rw [if_pos (by simp [Children.hasKey] : Children.hasKey
          (.cons k (setFresh n (ni.extend k) item none) .nil) k = true)]
        simp only [Children.setOrToggleAt, if_pos rfl]
        rw [ih (ni.extend k) item hlt']
        simp [Children.sizeAt, Children.lookup, freshPath_size]

theorem toggle_node_level_eq {it item : ListItem} (sel : Bool) (cs : Children)
    (sz : Int) (heq : ListItem.level item = ListItem.level it) :
    STree.setOrToggle (.node it sel cs sz) item none
      = .node it (!sel) cs (sz + if !sel then 1 else -1) := by
  simp only [STree.setOrToggle, if_pos heq]
  cases sel <;> simp

mutual

theorem STree.toggle_twice_eq_pathTouch : ∀ (t : STree) (item : ListItem),
    (t.toggle item).toggle item = t.pathTouch item
  | .node it sel cs sz, item => by
    simp only [STree.toggle]
    by_cases heq : ListItem.level item = ListItem.level it
    · rw [toggle_node_level_eq sel cs sz heq, toggle_node_level_eq (!sel) cs _ heq]
      simp only [STree.pathTouch, if_pos heq]
      cases sel <;> simp [STree.node.injEq] <;> norm_num
    · cases hid : item.getIdAtLevel it.level with
      | none =>
        have hin : STree.setOrToggle (.node it sel cs sz) item none = .node it sel cs sz := by
          simp only [STree.setOrToggle]
          rw [if_neg heq, hid]
        rw [hin, hin]
        simp only [STree.pathTouch]
        rw [if_neg heq, hid]
      | some k =>
        by_cases hkey : cs.hasKey k
        · have hin : STree.setOrToggle (.node it sel cs sz) item none
              = .node it sel (cs.setOrToggleAt k item none)
                  (sz - cs.sizeAt k + (cs.setOrToggleAt k item none).sizeAt k) := by
            simp only [STree.setOrToggle]
            rw [if_neg heq, hid]
            dsimp only
            rw [if_pos hkey]
          have hkey1 : (cs.setOrToggleAt k item none).hasKey k = true :=
            (Children.hasKey_setOrToggleAt cs k k item none).trans hkey
          have hout : STree.setOrToggle
              (.node it sel (cs.setOrToggleAt k item none)
                (sz - cs.sizeAt k + (cs.setOrToggleAt k item none).sizeAt k)) item none
              = .node it sel ((cs.setOrToggleAt k item none).setOrToggleAt k item none)
                  ((sz - cs.sizeAt k + (cs.setOrToggleAt k item none).sizeAt k)
                    - (cs.setOrToggleAt k item none).sizeAt k
                    + ((cs.setOrToggleAt k item none).setOrToggleAt k item none).sizeAt k) := by
            simp only [STree.setOrToggle]
            rw [if_neg heq, hid]
            dsimp only
            rw [if_pos hkey1]
          rw [hin, hout, Children.toggle_twice_eq_pathTouchAt cs k item]
          simp only [STree.pathTouch]
          rw [if_neg heq, hid]
          dsimp only
          rw [if_pos hkey]
          have hps : (cs.pathTouchAt k item).sizeAt k = cs.sizeAt k := by
            simp only [Children.sizeAt, Children.lookup_pathTouchAt]
            cases cs.lookup k with
            | none => rfl
            | some c =>
              simpa using (STree.pathTouch_fields c item).2.2
          rw [hps]
          simp only [STree.node.injEq, true_and]
          omega
        · have hkey' : cs.hasKey k = false := by simpa using hkey
          have hin : STree.setOrToggle (.node it sel cs sz) item none
              = .node it sel (cs.append k (setFresh 6 (it.extend k) item none))
                  (sz - 0 + (setFresh 6 (it.extend k) item none).size) := by
            simp only [STree.setOrToggle]
            rw [if_neg heq, hid]
            dsimp only
            rw [if_neg hkey]
          have hkey1 : (cs.append k (setFresh 6 (it.extend k) item none)).hasKey k = true :=
            Children.hasKey_append_self cs k _
          have hout : STree.setOrToggle
              (.node it sel (cs.append k (setFresh 6 (it.extend k) item none))
                (sz - 0 + (setFresh 6 (it.extend k) item none).size)) item none
              = .node it sel
                  ((cs.append k (setFresh 6 (it.extend k) item none)).setOrToggleAt k item none)
                  ((sz - 0 + (setFresh 6 (it.extend k) item none).size)
                    - (cs.append k (setFresh 6 (it.extend k) item none)).sizeAt k
                    + ((cs.append k (setFresh 6 (it.extend k) item none)).setOrToggleAt
                        k item none).sizeAt k) := by
            simp only [STree.setOrToggle]
            rw [if_neg heq, hid]
            dsimp only
            rw [if_pos hkey1]
          rw [hin, hout, Children.setOrToggleAt_append _ item none hkey',
            toggle_twice_setFresh 6 (it.extend k) item (by
              have := ListLevel.toNat_le_five (ListItem.level item)
              omega)]
          simp only [STree.pathTouch]
          rw [if_neg heq, hid]
          dsimp only
          rw [if_neg hkey]
          have h1 : (cs.append k (setFresh 6 (it.extend k) item none)).sizeAt k
              = (setFresh 6 (it.extend k) item none).size := by
            simp [Children.sizeAt, Children.lookup_append_self _ hkey']
          have h2 : (cs.append k (freshPath 6 (it.extend k) item)).sizeAt k = 0 := by
            simp [Children.sizeAt, Children.lookup_append_self _ hkey', freshPath_size]
          rw [h1, h2]
          simp only [STree.node.injEq, true_and]
          omega

theorem Children.toggle_twice_eq_pathTouchAt : ∀ (cs : Children) (k : Id) (item : ListItem),
    (cs.setOrToggleAt k item none).setOrToggleAt k item none = cs.pathTouchAt k item
  | .nil, _, _ => rfl
  | .cons k' c rest, k, item => by
    by_cases h : k' = k
    · subst h
      have hc := STree.toggle_twice_eq_pathTouch c item
      simp only [STree.toggle] at hc
      simp [Children.setOrToggleAt, Children.pathTouchAt, hc]
    · simp only [Children.setOrToggleAt, Children.pathTouchAt, if_neg h]
      rw [Children.toggle_twice_eq_pathTouchAt rest k item]

end

theorem nodeView_freshPath : ∀ (p : List Id) (n : Nat) (ni item : ListItem),
    (freshPath n ni item).nodeView p = none ∨
      ∃ it', (freshPath n ni item).nodeView p = some (it', false, 0) := by
  intro p
  induction p with
  | nil =>
    intro n ni item
    right
    refine ⟨ni, ?_⟩
    cases n with
    | zero => rfl
    | succ n =>
      simp only [freshPath]
      split
      · rfl
      · split <;> rfl
  | cons k p ih =>
    intro n ni item
    cases n with
    | zero => left; rfl
    | succ n =>
      simp only [freshPath]
      split
      · left; rfl
      · split
        · left; rfl
        · rename_i k' _
          simp only [STree.nodeView, Children.nodeViewAt]
          split
          · exact ih n (ni.extend k') item
          · left; rfl

theorem nodeView_pathTouch : ∀ (p : List Id) (t : STree) (item : ListItem),
    (t.pathTouch item).nodeView p = t.nodeView p ∨
      (t.nodeView p = none ∧
        ∃ it', (t.pathTouch item).nodeView p = some (it', false, 0)) := by
  intro p
  induction p with
  | nil =>
    intro t item
    left
    cases t with
    | node it sel cs sz =>
      simp only [STree.pathTouch]
      split
      · rfl
      · split
        · rfl
        · split <;> rfl
  | cons k p ih =>
    intro t item
    cases t with
    | node it sel cs sz =>
      simp only [STree.pathTouch]
      split
      · left; rfl
      · split
        · left; rfl
        · rename_i k0 hk0
          by_cases hkey : cs.hasKey k0
          · rw [if_pos hkey]
            simp only [STree.nodeView]
            by_cases hkk : k = k0
            · subst hkk
              rw [Children.nodeViewAt_eq_lookup, Children.nodeViewAt_eq_lookup,
                Children.lookup_pathTouchAt]
              cases hc : cs.lookup k with
              | none => left; rfl
              | some c => simpa using ih c item
            · rw [Children.nodeViewAt_eq_lookup, Children.nodeViewAt_eq_lookup,
                Children.lookup_pathTouchAt_ne item hkk]
              left
              rfl
          · rw [if_neg hkey]
            simp only [STree.nodeView]
            have hkey' : cs.hasKey k0 = false := by simpa using hkey
            by_cases hkk : k = k0
            · subst hkk
              rw [Children.nodeViewAt_eq_lookup, Children.nodeViewAt_eq_lookup,
                Children.lookup_append_self _ hkey', Children.hasKey_false_lookup hkey']
              rcases nodeView_freshPath p 6 (it.extend k) item with h | ⟨it', h⟩
              · left
                simp [h]
              · right
                exact ⟨rfl, it', by simpa using h⟩
            · rw [Children.nodeViewAt_eq_lookup, Children.nodeViewAt_eq_lookup,
                Children.lookup_append_ne _ hkk]
              left
              rfl

/-- C6: toggling any item twice in succession restores the prior
selection state: the view of every key path that existed before — its
address, `selected` flag and `size` — is unchanged, and any path the two
walks allocated afresh holds an unselected node of size 0. -/
theorem c6_toggle_twice_restores (t : STree) (item : ListItem) (p : List Id) :
    ((t.toggle item).toggle item).nodeView p = t.nodeView p ∨
      (t.nodeView p = none ∧
        ∃ it', ((t.toggle item).toggle item).nodeView p = some (it', false, 0)) := by
  rw [STree.toggle_twice_eq_pathTouch]
  exact nodeView_pathTouch p t item

/-! ### The aggregation bridge -/

theorem getFileId_isBridgeKind {i : ListItem} {fid : String}
    (h : i.getFileId = some fid) : isBridgeKind i = true := by
  cases i <;> simp_all [ListItem.getFileId, isBridgeKind]

theorem foldl_some_level (l : List ListItem) : ∀ acc : Option ListLevel,
    l.foldl (fun _ i => some i.level) acc
      = (match l.getLast? with
         | some a => some a.level
         | none => acc) := by
  induction l with
  | nil => intro acc; rfl
  | cons a l ih =>
    intro acc
    cases l with
    | nil => simp [List.foldl]
    | cons b l' =>
      rw [show ((a :: b :: l').foldl (fun _ i => some i.level) acc)
          = ((b :: l').foldl (fun _ i => some i.level) (some a.level)) from rfl]
      rw [ih (some a.level), List.getLast?_cons_cons]
      cases hbl : (b :: l').getLast? with
      | none => simp [List.getLast?_eq_none_iff] at hbl
      | some x => rfl

theorem bridgeScan_fold (l : List ListItem) (fid : String) :
    ∀ (acc1 : Option ListLevel) (acc2 : List ListItem),
    l.foldl
      (fun acc item =>
        if item.getFileId = some fid then
          (some item.level, if isBridgeKind item then acc.2 ++ [item] else acc.2)
        else acc)
      (acc1, acc2)
      = ((l.filter fun i => decide (i.getFileId = some fid)).foldl
          (fun _ i => some i.level) acc1,
         acc2 ++ l.filter fun i => decide (i.getFileId = some fid) && isBridgeKind i) := by
  induction l with
  | nil => intro acc1 acc2; simp
  | cons a l ih =>
    intro acc1 acc2
    by_cases ha : a.getFileId = some fid
    · have hk := getFileId_isBridgeKind ha
      simp [List.foldl_cons, List.filter_cons, ha, hk, ih (some a.level) (acc2 ++ [a])]
    · simp [List.foldl_cons, List.filter_cons, ha, ih acc1 acc2]

theorem collectFromFile_filter_eq (t : STree) (fid : String) :
    (t.getSelected.filter fun i => decide (i.getFileId = some fid))
      = collectFromFile t fid := by
  rw [collectFromFile]
  apply List.filter_congr
  intro i _
  by_cases h : i.getFileId = some fid
  · simp [h, getFileId_isBridgeKind h]
  · simp [h]

theorem bridgeScan_eq (t : STree) (fid : String) :
    bridgeScan t fid
      = ((match (collectFromFile t fid).getLast? with
          | some a => some a.level
          | none => none),
         collectFromFile t fid) := by
  rw [bridgeScan, bridgeScan_fold t.getSelected fid none [],
    collectFromFile_filter_eq, foldl_some_level]
  simp [collectFromFile]

theorem bridge_foldl (fo : List String) (t : STree) (rev : Bool) :
    ∀ out : List (String × Option ListLevel × List ListItem),
    fo.foldl
      (fun out fid =>
        if (bridgeScan t fid).2.length > 0 then
          out ++ [(fid, (bridgeScan t fid).1, sortItems (bridgeScan t fid).2 rev)]
        else out)
      out
      = out ++ fo.filterMap (bridgeEntry t rev) := by
  induction fo with
  | nil => intro out; simp
  | cons fid fo ih =>
    intro out
    simp only [List.foldl_cons, List.filterMap_cons]
    rw [bridgeScan_eq]
    cases hc : collectFromFile t fid with
    | nil =>
      simp only [bridgeEntry, hc]
      simp [ih out]
    | cons a l =>
      simp only [bridgeEntry, hc]
      rw [if_pos (by simp)]
      rw [ih]
      cases hbl : (a :: l).getLast? with
      | none => simp [List.getLast?_eq_none_iff] at hbl
      | some x => simp

/-- C3: `applyToOrderedSelectedItemsFromFile(callback, reverse)` walks the
file identifiers in the given order, collects for each exactly the
selected items of that file of the five non-root kinds, and invokes the
callback — with the level of the last item of the unsorted scan and the
`sortItems`-sorted collection — exactly when the collection is non-empty;
in particular with file order `["f2", "f1"]` and items selected only in
`"f1"` the callback runs exactly once, for `"f1"`. -/
theorem c3_bridge_characterization :
    (∀ (fileOrder : List String) (t : STree) (reverse : Bool),
        applyToOrderedSelectedItemsFromFile fileOrder t reverse
          = fileOrder.filterMap (bridgeEntry t reverse)) ∧
      applyToOrderedSelectedItemsFromFile ["f2", "f1"]
          (freshRoot.set (.track "f1" 0) true) true
        = [("f1", some ListLevel.track, [ListItem.track "f1" 0])] := by
  constructor
  · intro fileOrder t reverse
    rw [applyToOrderedSelectedItemsFromFile]
    exact (bridge_foldl fileOrder t reverse []).trans
      (List.nil_append (fileOrder.filterMap (bridgeEntry t reverse)))
  · rfl

/-! ### `selectAll` on a single selected track -/

/-- The children of a file node holding exactly the selected tracks of
indices `ks`. -/
def mkTrackChildren (fid : String) : List Nat → Children
  | [] => .nil
  | i :: rest => .cons (.num i) (.node (.track fid i) true .nil 1) (mkTrackChildren fid rest)

/-- A root tree in which exactly the tracks `ks` of file `fid` are
selected, in that insertion order. -/
def trackSelTree (fid : String) (ks : List Nat) : STree :=
  .node .root false
    (.cons (.str fid)
      (.node (.file fid) false (mkTrackChildren fid ks) (ks.length : Int)) .nil)
    (ks.length : Int)

theorem mkTrackChildren_hasKey (fid : String) (i : Nat) :
    ∀ ks : List Nat, (mkTrackChildren fid ks).hasKey (.num i) = decide (i ∈ ks)
  | [] => by simp [mkTrackChildren, Children.hasKey]
  | j :: ks => by
    by_cases hj : j = i
    · subst hj
      simp [mkTrackChildren, Children.hasKey]
    · have hj2 : ¬ i = j := fun e => hj e.symm
      simp [mkTrackChildren, Children.hasKey, hj, hj2, mkTrackChildren_hasKey fid i ks]

theorem mkTrackChildren_sizeAt (fid : String) (i : Nat) :
    ∀ ks : List Nat,
    (mkTrackChildren fid ks).sizeAt (.num i) = if i ∈ ks then 1 else 0
  | [] => by simp [mkTrackChildren, Children.sizeAt, Children.lookup]
  | j :: ks => by
    have h := mkTrackChildren_sizeAt fid i ks
    by_cases hj : j = i
    · subst hj
      simp [mkTrackChildren, Children.sizeAt, Children.lookup, STree.size]
    · have hj' : ¬ (Id.num j) = (Id.num i) := by simp [hj]
      have hj2 : ¬ i = j := fun e => hj e.symm
      simp only [mkTrackChildren, Children.sizeAt, Children.lookup, if_neg hj'] at h ⊢
      rw [h]
      simp [List.mem_cons, hj2]

theorem mkTrackChildren_set_mem (fid : String) (i : Nat) :
    ∀ ks : List Nat, i ∈ ks →
    (mkTrackChildren fid ks).setOrToggleAt (.num i) (.track fid i) (some true)
      = mkTrackChildren fid ks
  | [], h => absurd h (List.not_mem_nil i)
  | j :: ks, h => by
    by_cases hj : j = i
    · subst hj
      simp [mkTrackChildren, Children.setOrToggleAt, STree.setOrToggle, ListItem.level]
    · have hj' : ¬ (Id.num j) = (Id.num i) := by simp [hj]
      have hi : i ∈ ks := by
        rcases List.mem_cons.1 h with h1 | h1
        · exact absurd h1.symm hj
        · exact h1
      simp only [mkTrackChildren, Children.setOrToggleAt, if_neg hj']
      rw [mkTrackChildren_set_mem fid i ks hi]

theorem mkTrackChildren_append (fid : String) (i : Nat) :
    ∀ ks : List Nat,
    (mkTrackChildren fid ks).append (.num i) (.node (.track fid i) true .nil 1)
      = mkTrackChildren fid (ks ++ [i])
  | [] => rfl
  | j :: ks =>
    show Children.cons (Id.num j) (STree.node (ListItem.track fid j) true .nil 1)
        ((mkTrackChildren fid ks).append (.num i) (.node (.track fid i) true .nil 1))
      = Children.cons (Id.num j) (STree.node (ListItem.track fid j) true .nil 1)
        (mkTrackChildren fid (ks ++ [i])) from
    congrArg _ (mkTrackChildren_append fid i ks)

theorem setFresh_track (fid : String) (i : Nat) :
    setFresh 6 (.track fid i) (.track fid i) (some true)
      = .node (.track fid i) true .nil 1 := rfl

theorem set_fileNode (fid : String) (ks : List Nat) (i : Nat) :
    STree.setOrToggle
        (.node (.file fid) false (mkTrackChildren fid ks) (ks.length : Int))
        (.track fid i) (some true)
      = .node (.file fid) false
          (mkTrackChildren fid (if i ∈ ks then ks else ks ++ [i]))
          ((if i ∈ ks then ks else ks ++ [i]).length : Int) := by
  have hne2 : ¬ ListItem.level (.track fid i) = ListItem.level (.file fid) := by
    simp [ListItem.level]
  by_cases hmem : i ∈ ks
  · rw [if_pos hmem]
    simp only [STree.setOrToggle]
    rw [if_neg hne2]
    rw [show (ListItem.track fid i).getIdAtLevel (ListItem.file fid).level
        = some (.num i) from rfl]
    dsimp only
    rw [mkTrackChildren_hasKey, if_pos (by simpa using hmem)]
    rw [mkTrackChildren_set_mem fid i ks hmem]
    rw [mkTrackChildren_sizeAt, if_pos hmem]
    simp only [STree.node.injEq, true_and]
    omega
  · rw [if_neg hmem]
    simp only [STree.setOrToggle]
    rw [if_neg hne2]
    rw [show (ListItem.track fid i).getIdAtLevel (ListItem.file fid).level
        = some (.num i) from rfl]
    dsimp only
    rw [mkTrackChildren_hasKey, if_neg (by simpa using hmem)]
    rw [show (ListItem.file fid).extend (Id.num i) = ListItem.track fid i from rfl]
    rw [setFresh_track, mkTrackChildren_append]
    simp only [STree.node.injEq, true_and, STree.size, List.length_append,
      List.length_singleton]
    push_cast
    omega

theorem set_trackSelTree (fid : String) (ks : List Nat) (i : Nat) :
    (trackSelTree fid ks).set (.track fid i) true
      = trackSelTree fid (if i ∈ ks then ks else ks ++ [i]) := by
  have hne1 : ¬ ListItem.level (.track fid i) = ListItem.level (.root) := by
    simp [ListItem.level]
  have hkey1 : Children.hasKey
      (.cons (.str fid) (.node (.file fid) false (mkTrackChildren fid ks)
        (ks.length : Int)) .nil) (.str fid) = true := by
    simp [Children.hasKey]
  simp only [trackSelTree, STree.set, STree.setOrToggle]
  rw [if_neg hne1]
  rw [show (ListItem.track fid i).getIdAtLevel (ListItem.root).level
      = some (.str fid) from rfl]
  dsimp only
  rw [if_pos hkey1]
  rw [show Children.setOrToggleAt
      (.cons (.str fid) (.node (.file fid) false (mkTrackChildren fid ks)
        (ks.length : Int)) .nil) (.str fid) (.track fid i) (some true)
    = Children.cons (.str fid)
        (STree.setOrToggle
          (.node (.file fid) false (mkTrackChildren fid ks) (ks.length : Int))
          (.track fid i) (some true)) .nil from by
    simp [Children.setOrToggleAt]]
  rw [set_fileNode]
  simp [Children.sizeAt, Children.lookup, STree.size, STree.node.injEq]

theorem set_freshRoot_track (fid : String) (k : Nat) :
    freshRoot.set (.track fid k) true = trackSelTree fid [k] := rfl

theorem lastVisited_trackSelTree (fid : String) (k : Nat) :
    lastVisited (trackSelTree fid [k]) = .track fid k := rfl

/-- The indices selected after setting each element of `l` in turn on a
tree already holding `ks`: existing entries are kept in place, new ones
are appended in order. -/
def addNew (ks : List Nat) (l : List Nat) : List Nat :=
  l.foldl (fun ks i => if i ∈ ks then ks else ks ++ [i]) ks

theorem foldl_set_trackSelTree (fid : String) :
    ∀ (l : List Nat) (ks : List Nat),
    l.foldl (fun t i => t.set (.track fid i) true) (trackSelTree fid ks)
      = trackSelTree fid (addNew ks l)
  | [], _ => rfl
  | i :: l, ks => by
    rw [List.foldl_cons, set_trackSelTree,
      show addNew ks (i :: l) = addNew (if i ∈ ks then ks else ks ++ [i]) l from rfl,
      foldl_set_trackSelTree fid l _]

theorem mem_addNew (l : List Nat) : ∀ (ks : List Nat) (i : Nat),
    i ∈ addNew ks l ↔ i ∈ ks ∨ i ∈ l := by
  induction l with
  | nil => intro ks i; simp [addNew]
  | cons a l ih =>
    intro ks i
    rw [show addNew ks (a :: l) = addNew (if a ∈ ks then ks else ks ++ [a]) l from rfl,
      ih]
    by_cases ha : a ∈ ks
    · rw [if_pos ha]
      constructor
      · rintro (h | h)
        · exact Or.inl h
        · exact Or.inr (List.mem_cons_of_mem a h)
      · rintro (h | h)
        · exact Or.inl h
        · rcases List.mem_cons.1 h with rfl | h1
          · exact Or.inl ha
          · exact Or.inr h1
    · rw [if_neg ha]
      simp only [List.mem_append, List.mem_singleton, List.mem_cons]
      tauto

theorem nodup_addNew (l : List Nat) : ∀ ks : List Nat, ks.Nodup → (addNew ks l).Nodup := by
  induction l with
  | nil => intro ks h; exact h
  | cons a l ih =>
    intro ks h
    rw [show addNew ks (a :: l) = addNew (if a ∈ ks then ks else ks ++ [a]) l from rfl]
    apply ih
    by_cases ha : a ∈ ks
    · rwa [if_pos ha]
    · rw [if_neg ha]
      simp [List.nodup_append, h, ha]

theorem length_addNew_range (k n : Nat) (hk : k < n) :
    (addNew [k] (List.range n)).length = n := by
  have hnd : (addNew [k] (List.range n)).Nodup := nodup_addNew _ [k] (by simp)
  have hmem : ∀ i, i ∈ addNew [k] (List.range n) ↔ i < n := by
    intro i
    rw [mem_addNew]
    simp only [List.mem_singleton, List.mem_range]
    constructor
    · rintro (rfl | h)
      · exact hk
      · exact h
    · intro h
      exact Or.inr h
  have hfin : (addNew [k] (List.range n)).toFinset = Finset.range n := by
    ext i
    simp [List.mem_toFinset, Finset.mem_range, hmem]
  calc (addNew [k] (List.range n)).length
      = (addNew [k] (List.range n)).toFinset.card :=
        (List.toFinset_card_of_nodup hnd).symm
    _ = (Finset.range n).card := by rw [hfin]
    _ = n := Finset.card_range n

theorem mkTrackChildren_hasAt_track (fid g : String) (i : Nat) :
    ∀ ks : List Nat,
    (mkTrackChildren fid ks).hasAt (.num i) (.track g i) = decide (i ∈ ks)
  | [] => by simp [mkTrackChildren, Children.hasAt]
  | j :: ks => by
    by_cases hj : j = i
    · subst hj
      simp [mkTrackChildren, Children.hasAt, STree.has, ListItem.level]
    · have hj' : ¬ (Id.num j) = (Id.num i) := by simp [hj]
      have hj2 : ¬ i = j := fun e => hj e.symm
      simp [mkTrackChildren, Children.hasAt, hj', hj2,
        mkTrackChildren_hasAt_track fid g i ks]

theorem mkTrackChildren_hasAt_segment (fid g : String) (t s2 : Nat) :
    ∀ ks : List Nat,
    (mkTrackChildren fid ks).hasAt (.num t) (.segment g t s2) = false
  | [] => rfl
  | j :: ks => by
    by_cases hj : j = t
    · subst hj
      simp [mkTrackChildren, Children.hasAt, STree.has, ListItem.level,
        ListItem.getIdAtLevel]
    · have hj' : ¬ (Id.num j) = (Id.num t) := by simp [hj]
      simp [mkTrackChildren, Children.hasAt, hj',
        mkTrackChildren_hasAt_segment fid g t s2 ks]

theorem mkTrackChildren_hasAt_str (fid s2 : String) (item : ListItem) :
    ∀ ks : List Nat, (mkTrackChildren fid ks).hasAt (.str s2) item = false
  | [] => rfl
  | j :: ks => by
    simp [mkTrackChildren, Children.hasAt, mkTrackChildren_hasAt_str fid s2 item ks]

theorem has_trackSelTree_track (fid : String) (ks : List Nat) (i : Nat) :
    (trackSelTree fid ks).has (.track fid i) = decide (i ∈ ks) := by
  simp [trackSelTree, STree.has, Children.hasAt, ListItem.level,
    ListItem.getIdAtLevel, mkTrackChildren_hasAt_track]

theorem has_trackSelTree_only (fid : String) (ks : List Nat) :
    ∀ item : ListItem, (trackSelTree fid ks).has item = true →
      ∃ i, i ∈ ks ∧ item = .track fid i := by
  intro item
  cases item with
  | root =>
    intro h
    simp [trackSelTree, STree.has, ListItem.level] at h
  | file g =>
    intro h
    by_cases hg : fid = g
    · subst hg
      simp [trackSelTree, STree.has, Children.hasAt, ListItem.level,
        ListItem.getIdAtLevel] at h
    · simp [trackSelTree, STree.has, Children.hasAt, ListItem.level,
        ListItem.getIdAtLevel, hg] at h
  | track g i =>
    intro h
    by_cases hg : fid = g
    · subst hg
      refine ⟨i, ?_, rfl⟩
      simp [trackSelTree, STree.has, Children.hasAt, ListItem.level,
        ListItem.getIdAtLevel, mkTrackChildren_hasAt_track] at h
      exact h
    · simp [trackSelTree, STree.has, Children.hasAt, ListItem.level,
        ListItem.getIdAtLevel, hg] at h
  | segment g t s2 =>
    intro h
    by_cases hg : fid = g
    · subst hg
      simp [trackSelTree, STree.has, Children.hasAt, ListItem.level,
        ListItem.getIdAtLevel, mkTrackChildren_hasAt_segment] at h
    · simp [trackSelTree, STree.has, Children.hasAt, ListItem.level,
        ListItem.getIdAtLevel, hg] at h
  | waypoints g =>
    intro h
    by_cases hg : fid = g
    · subst hg
      simp [trackSelTree, STree.has, Children.hasAt, ListItem.level,
        ListItem.getIdAtLevel, mkTrackChildren_hasAt_str] at h
    · simp [trackSelTree, STree.has, Children.hasAt, ListItem.level,
        ListItem.getIdAtLevel, hg] at h
  | waypoint g w =>
    intro h
    by_cases hg : fid = g
    · subst hg
      simp [trackSelTree, STree.has, Children.hasAt, ListItem.level,
        ListItem.getIdAtLevel, mkTrackChildren_hasAt_str] at h
    · simp [trackSelTree, STree.has, Children.hasAt, ListItem.level,
        ListItem.getIdAtLevel, hg] at h

theorem selectAll_single_track_eq (files : List (String × GPXFileData)) (fid : String)
    (k : Nat) (fd : GPXFileData) (hfd : lookupFile files fid = some fd) :
    selectAll files (trackSelTree fid [k])
      = trackSelTree fid (addNew [k] (List.range fd.trk.length)) := by
  rw [selectAll, lastVisited_trackSelTree]
  dsimp only
  rw [hfd]
  exact foldl_set_trackSelTree fid (List.range fd.trk.length) [k]

/-- C2 is refuted as stated: with the tracks of two different files
selected, the last item of the traversal is a track of `"f2"`, so the
chosen level and scope are the tracks of `"f2"` — yet `selectAll` does
not clear in the track branch, and the selected track of `"f1"`, outside
that scope, remains selected afterwards. -/
theorem c2_selectAll_counterexample :
    lastVisited ((freshRoot.set (.track "f1" 0) true).set (.track "f2" 0) true)
        = .track "f2" 0 ∧
      STree.has
        (selectAll [("f1", ⟨[⟨[]⟩], []⟩), ("f2", ⟨[⟨[]⟩], []⟩)]
          ((freshRoot.set (.track "f1" 0) true).set (.track "f2" 0) true))
        (.track "f1" 0) = true :=
  ⟨rfl, rfl⟩

/-- C2 (amended): `selectAll()` determines the target level from the last
selected item of the traversal; it clears the tree only in the root/file
branch, while the track, segment and waypoint branches add every item at
that level in scope to the existing selection without clearing.  When the
current selection is a single `TrackItem` with a valid track index, the
previous selection is contained in the re-selected set, so afterwards
exactly the `TrackItem`s of that file are selected and the root's `size`
equals the number of tracks in that file. -/
theorem c2_selectAll_single_track (fid : String) (k : Nat)
    (files : List (String × GPXFileData)) (fd : GPXFileData)
    (hfd : lookupFile files fid = some fd) (hk : k < fd.trk.length) :
    lastVisited (freshRoot.set (.track fid k) true) = .track fid k ∧
      (selectAll files (freshRoot.set (.track fid k) true)).size
        = (fd.trk.length : Int) ∧
      (∀ i, i < fd.trk.length →
        (selectAll files (freshRoot.set (.track fid k) true)).has (.track fid i)
          = true) ∧
      (∀ item,
        (selectAll files (freshRoot.set (.track fid k) true)).has item = true →
        ∃ i, i < fd.trk.length ∧ item = .track fid i) := by
  rw [set_freshRoot_track]
  refine ⟨lastVisited_trackSelTree fid k, ?_, ?_, ?_⟩
  · rw [selectAll_single_track_eq files fid k fd hfd]
    simp [trackSelTree, STree.size, length_addNew_range k _ hk]
  · intro i hi
    rw [selectAll_single_track_eq files fid k fd hfd, has_trackSelTree_track]
    simp [mem_addNew, List.mem_range, hi]
  · intro item h
    rw [selectAll_single_track_eq files fid k fd hfd] at h
    obtain ⟨i, hmem, rfl⟩ := has_trackSelTree_only fid _ item h
    refine ⟨i, ?_, rfl⟩
    rcases (mem_addNew _ _ _).1 hmem with h1 | h1
    · rw [List.mem_singleton.1 h1]
      exact hk
    · exact List.mem_range.1 h1

/-- Witness for the amended C2 at a concrete file with two tracks and the
single selected track 0. -/
theorem c2_selectAll_single_track_witness :
    (selectAll [("f1", ⟨[⟨[]⟩, ⟨[]⟩], []⟩)]
      (freshRoot.set (.track "f1" 0) true)).size = 2 := by
  have h := c2_selectAll_single_track "f1" 0 [("f1", ⟨[⟨[]⟩, ⟨[]⟩], []⟩)]
    ⟨[⟨[]⟩, ⟨[]⟩], []⟩ rfl (by decide)
  exact h.2.1.trans (by decide)

end GPXSel

